import Mathlib

/-!
Verification of the linked-list variants of the `rust-lists` repository.

Each Rust module is shallowly embedded as a Lean model:
  * `First`       — src/first.rs: owned-box i32 stack, no `Drop` impl.
  * `BadStack`    — src/bad_stack.rs: same stack with a loop-based `Drop` impl.
  * `Second`      — src/second.rs: generic owned-box stack with loop `Drop`.
  * `Third`       — src/third.rs: persistent list over `Arc` nodes; the store of
                    reference-counted allocations is made explicit.
  * `UnsafeDeque` — src/unsafe_deque.rs: singly linked queue with a raw cached
                    tail pointer; boxes become heap addresses, null becomes 0.
  * `Fourth`      — src/fourth.rs: doubly linked deque over `Rc<RefCell<_>>`
                    nodes; the heap, strong counts and `RefCell` borrow flags
                    are explicit, and operations that can panic return `Except`.
-/

/-- Alias for Lean's `List`, used inside namespaces whose model type is itself
named `List` after the Rust struct. -/
abbrev Sq (α : Type) : Type := List α

namespace First

/-- Link from first.rs: `enum Link { Empty, More(Box<Node>) }`, with the boxed
`Node { elem: i32, next: Link }` inlined into the `More` constructor. -/
inductive Link where
  | Empty : Link
  | More (elem : Int) (next : Link)
deriving DecidableEq

/-- List from first.rs: `pub struct List { head: Link }`. -/
structure List where
  head : Link
deriving DecidableEq

/-- `List::new`: `List { head: Link::Empty }`. -/
def List.new : List := ⟨Link.Empty⟩

/-- `List::push`: replace `head` by a new `More` node whose `next` is the old
head. -/
def List.push (s : List) (elem : Int) : List :=
  ⟨Link.More elem s.head⟩

/-- `List::pop`: `mem::replace` the head with `Empty`, then either restore
`Empty` and return `None`, or advance to `next` and return `Some(elem)`. -/
def List.pop (s : List) : Option Int × List :=
  match s.head with
  | Link.Empty => (none, ⟨Link.Empty⟩)
  | Link.More elem next => (some elem, ⟨next⟩)

/-- first.rs has no `Drop` impl, so dropping a `List` runs the
compiler-generated teardown: dropping a `More` link drops its boxed node, which
in turn drops `next` — one nested drop call per element, and the nesting is not
a tail call because the `Box` must be freed after its contents. This function
measures that nesting depth. -/
def Link.defaultDropDepth : Link → Nat
  | .Empty => 0
  | .More _ next => 1 + next.defaultDropDepth

/-- Number of elements reachable from a link. -/
def Link.length : Link → Nat
  | .Empty => 0
  | .More _ next => 1 + next.length

/-- Build a chain of `n` nodes (all elements 0). -/
def chain : Nat → Link
  | 0 => .Empty
  | n + 1 => .More 0 (chain n)

end First

namespace BadStack

/-- Link from bad_stack.rs (same layout as first.rs). -/
inductive Link where
  | Empty : Link
  | More (elem : Int) (next : Link)
deriving DecidableEq

/-- List from bad_stack.rs: `pub struct List { head: Link }`. -/
structure List where
  head : Link
deriving DecidableEq

/-- `List::new`. -/
def List.new : List := ⟨Link.Empty⟩

/-- `List::push` from bad_stack.rs. -/
def List.push (s : List) (elem : Int) : List :=
  ⟨Link.More elem s.head⟩

/-- `List::pop` from bad_stack.rs. -/
def List.pop (s : List) : Option Int × List :=
  match s.head with
  | Link.Empty => (none, ⟨Link.Empty⟩)
  | Link.More elem next => (some elem, ⟨next⟩)

/-- Depth of the compiler-generated recursive teardown of a box chain; the
explicit `Drop` impl of bad_stack.rs exists precisely so that this recursion
never runs over a whole chain. It is used below to measure the teardown of each
node the loop detaches. -/
def Link.defaultDropDepth : Link → Nat
  | .Empty => 0
  | .More _ next => 1 + next.defaultDropDepth

/-- Iterations of the loop in `impl Drop for List`:
`while let Link::More(mut boxed_node) = cur_link
   { cur_link = mem::replace(&mut boxed_node.next, Link::Empty); }` —
one iteration per node of the chain. -/
def Link.dropIterations : Link → Nat
  | .Empty => 0
  | .More _ next => 1 + next.dropIterations

/-- Deepest nested drop performed by any single iteration of the `Drop` loop:
the node dropped at the end of an iteration has had its `next` replaced by
`Empty`, so what is actually dropped is `More elem Empty`. -/
def Link.dropLoopMaxDepth : Link → Nat
  | .Empty => 0
  | .More elem next =>
      max (Link.defaultDropDepth (.More elem .Empty)) next.dropLoopMaxDepth

/-- Number of elements reachable from a link. -/
def Link.length : Link → Nat
  | .Empty => 0
  | .More _ next => 1 + next.length

end BadStack

namespace Second

/-- Link from second.rs: `type Link<T> = Option<Box<Node<T>>>` with
`struct Node<T> { elem: T, next: Link<T> }` inlined into the `more`
constructor. -/
inductive Link (T : Type) where
  | none : Link T
  | more (elem : T) (next : Link T)

/-- List from second.rs: `pub struct List<T> { head: Link<T> }`. -/
structure List (T : Type) where
  head : Link T

/-- `List::new`. -/
def List.new {T : Type} : List T := ⟨Link.none⟩

/-- `List::push`: new node whose `next` is `self.head.take()`. -/
def List.push {T : Type} (s : List T) (elem : T) : List T :=
  ⟨Link.more elem s.head⟩

/-- `List::pop`: `self.head.take().map(|node| { self.head = node.next; node.elem })`. -/
def List.pop {T : Type} (s : List T) : Option T × List T :=
  match s.head with
  | Link.none => (none, ⟨Link.none⟩)
  | Link.more elem next => (some elem, ⟨next⟩)

/-- `List::peek`: `self.head.as_ref().map(|node| &node.elem)`. -/
def List.peek {T : Type} (s : List T) : Option T :=
  match s.head with
  | Link.none => none
  | Link.more elem _ => some elem

/-- `List::peek_mut`: same element access through `as_mut`. -/
def List.peek_mut {T : Type} (s : List T) : Option T :=
  match s.head with
  | Link.none => none
  | Link.more elem _ => some elem

/-- Depth of the compiler-generated recursive teardown of a box chain; the
explicit `Drop` impl of second.rs exists precisely so that this recursion never
runs over a whole chain. -/
def Link.defaultDropDepth {T : Type} : Link T → Nat
  | .none => 0
  | .more _ next => 1 + next.defaultDropDepth

/-- Iterations of the loop in `impl Drop for List`:
`while let Some(mut boxed_node) = cur_link { cur_link = boxed_node.next.take(); }`
— one iteration per node. -/
def Link.dropIterations {T : Type} : Link T → Nat
  | .none => 0
  | .more _ next => 1 + next.dropIterations

/-- Deepest nested drop performed by any single iteration of the `Drop` loop:
the detached `boxed_node` has had its `next` taken, so the node dropped at the
end of an iteration is `more elem none`. -/
def Link.dropLoopMaxDepth {T : Type} : Link T → Nat
  | .none => 0
  | .more elem next =>
      max (Link.defaultDropDepth (.more elem .none)) next.dropLoopMaxDepth

/-- Number of elements reachable from a link. -/
def Link.length {T : Type} : Link T → Nat
  | .none => 0
  | .more _ next => 1 + next.length

end Second

namespace Third

/-- Node from third.rs: `struct Node<T> { elem: T, next: Link<T> }` where
`Link<T> = Option<Arc<Node<T>>>`. An `Arc<Node<T>>` is modelled as the address
of an allocation in an explicit store, so `next` holds `Option Nat`. -/
structure Node (T : Type) where
  elem : T
  next : Option Nat
deriving DecidableEq

/-- Explicit store of `Arc` allocations: each entry is
`(address, node, strong count)`. `fresh` is the next address the allocator
hands out. -/
structure Heap (T : Type) where
  entries : Sq (Nat × Node T × Nat)
  fresh : Nat
deriving DecidableEq

/-- List from third.rs: `pub struct List<T> { head: Link<T> }`. -/
structure List (T : Type) where
  head : Option Nat
deriving DecidableEq

/-- Look up address `a` among store entries (first match). -/
def findEntry (a : Nat) : Sq (Nat × Node T × Nat) → Option (Node T × Nat)
  | [] => none
  | (b, nd, c) :: rest => if a = b then some (nd, c) else findEntry a rest

/-- Look up the node and strong count stored at address `a`. -/
def Heap.find (h : Heap T) (a : Nat) : Option (Node T × Nat) :=
  findEntry a h.entries

/-- The node stored at address `a`, disregarding its strong count. -/
def nodeAt (h : Heap T) (a : Nat) : Option (Node T) :=
  (h.find a).map Prod.fst

/-- Store well-formedness: every allocated address is below `fresh`. -/
def HeapWF (h : Heap T) : Prop :=
  ∀ p ∈ h.entries, p.1 < h.fresh

/-- `Arc::clone` of an optional link: bump the strong count of the target. -/
def Heap.incRef (h : Heap T) : Option Nat → Heap T
  | none => h
  | some a =>
      ⟨h.entries.map fun p => (p.1, p.2.1, if p.1 = a then p.2.2 + 1 else p.2.2),
       h.fresh⟩

/-- Drop of one `Arc` handle to address `a` whose count is not yet 1: the
strong count decreases by one. -/
def Heap.decRef (h : Heap T) (a : Nat) : Heap T :=
  ⟨h.entries.map fun p => (p.1, p.2.1, if p.1 = a then p.2.2 - 1 else p.2.2),
   h.fresh⟩

/-- Remove the entry at address `a` from a store entry list. -/
def eraseEntry (a : Nat) : Sq (Nat × Node T × Nat) → Sq (Nat × Node T × Nat)
  | [] => []
  | (b, nd, c) :: rest =>
      if b = a then eraseEntry a rest else (b, nd, c) :: eraseEntry a rest

/-- Deallocation of the node at address `a` (strong count reached zero). -/
def Heap.free (h : Heap T) (a : Nat) : Heap T :=
  ⟨eraseEntry a h.entries, h.fresh⟩

/-- The empty store. -/
def Heap.new {T : Type} : Heap T := ⟨[], 1⟩

/-- `List::new`: `List { head: None }`. -/
def List.new {T : Type} : List T := ⟨none⟩

/-- `List::append` from third.rs (the spec's `prepend`):
`let next = self.head.clone(); List { head: Some(Arc::new(Node { elem, next })) }`.
The clone bumps the old head's count; the fresh node starts with count 1 (the
returned list's sole handle). The store is threaded explicitly. -/
def append (h : Heap T) (s : List T) (elem : T) : Heap T × List T :=
  let next := s.head
  let h1 := h.incRef next
  let a := h1.fresh
  (⟨(a, ⟨elem, next⟩, 1) :: h1.entries, h1.fresh + 1⟩, ⟨some a⟩)

/-- `List::tail`: `self.head.as_ref().and_then(|node| node.next.clone())`. -/
def tail (h : Heap T) (s : List T) : Heap T × List T :=
  match s.head with
  | none => (h, ⟨none⟩)
  | some a =>
      match h.find a with
      | none => (h, ⟨none⟩)
      | some (nd, _) => (h.incRef nd.next, ⟨nd.next⟩)

/-- `List::head`: `self.head.as_ref().map(|node| &node.elem)`. -/
def headVal (h : Heap T) (s : List T) : Option T :=
  match s.head with
  | none => none
  | some a =>
      match h.find a with
      | none => none
      | some (nd, _) => some nd.elem

/-- Loop body of `impl Drop for List`:
`while let Some(node) = head { if let Ok(mut node) = Arc::try_unwrap(node)
   { head = node.next.take(); } else { break } }`.
`try_unwrap` succeeds exactly when the strong count is 1; then the node is
deallocated and the walk continues with its `next`. Otherwise the `Err` handle
is dropped (count decreases by one) and the loop breaks. `fuel` bounds the
number of iterations; any fuel at least the chain length is enough. -/
def dropList (h : Heap T) : Option Nat → Nat → Heap T
  | none, _ => h
  | some _, 0 => h
  | some a, fuel + 1 =>
      match h.find a with
      | none => h
      | some (nd, c) =>
          if c = 1 then dropList (h.free a) nd.next fuel
          else h.decRef a

/-- Chain predicate: starting from link `o`, the store contains a finite chain
of nodes at addresses `as` holding the elements `xs`. -/
inductive PChain (h : Heap T) : Option Nat → Sq Nat → Sq T → Prop where
  | nil : PChain h none [] []
  | cons {a : Nat} {nd : Node T} {c : Nat} {as : Sq Nat} {xs : Sq T} :
      h.find a = some (nd, c) → PChain h nd.next as xs →
      PChain h (some a) (a :: as) (nd.elem :: xs)

/-- Concrete one-node fixture store: address 1 holds element 10, strong
count 1. -/
def sampleHeap : Heap Nat := ⟨[(1, ⟨10, none⟩, 1)], 2⟩

/-- The one-element fixture list `[10]` rooted at address 1. -/
def sampleList : List Nat := ⟨some 1⟩

/-- Two-node fixture store: address 2 (element 20, count 1) links to address 1
(element 10, count 2 — shared with a sibling list). -/
def sharedHeap : Heap Nat := ⟨[(2, ⟨20, some 1⟩, 1), (1, ⟨10, none⟩, 2)], 3⟩

/-- The fixture list `[20, 10]` rooted at address 2 in `sharedHeap`. -/
def sharedList : List Nat := ⟨some 2⟩

end Third

namespace UnsafeDeque

/-- Node from unsafe_deque.rs: `struct Node<T> { elem: T, next: Link<T> }` with
`Link<T> = Option<Box<Node<T>>>`. Boxes are modelled as heap addresses: `next`
holds the address of the successor, with 0 as the `None`/null sentinel
(allocation hands out addresses starting at 1). -/
structure Node (T : Type) where
  elem : T
  next : Nat
deriving DecidableEq

/-- List from unsafe_deque.rs:
`pub struct List<T> { head: Link<T>, tail: *mut Node<T> }`.
`heap` maps addresses to allocated nodes (`none` = unallocated or freed),
`head` is the owning pointer to the first node (0 = `None`), `tail` the cached
raw pointer (0 = null), `fresh` the next address the allocator hands out. -/
structure List (T : Type) where
  heap : Nat → Option (Node T)
  head : Nat
  tail : Nat
  fresh : Nat

/-- `List::new`: `List { head: None, tail: ptr::null_mut() }`. -/
def List.new {T : Type} : List T := ⟨fun _ => none, 0, 0, 1⟩

/-- `List::push`: allocate `new_tail` with `next: None` and remember the raw
pointer to it. If `self.tail.is_null()` the new node becomes `head`; otherwise
write `(*self.tail).next = Some(new_tail)` through the raw pointer. Finally
`self.tail = raw_tail` unconditionally. -/
def List.push (s : List T) (elem : T) : List T :=
  let raw_tail := s.fresh
  let new_tail : Node T := ⟨elem, 0⟩
  if s.tail = 0 then
    { heap := fun b => if b = raw_tail then some new_tail else s.heap b,
      head := raw_tail, tail := raw_tail, fresh := s.fresh + 1 }
  else
    { heap := fun b =>
        if b = raw_tail then some new_tail
        else if b = s.tail then (s.heap b).map fun nd => ⟨nd.elem, raw_tail⟩
        else s.heap b,
      head := s.head, tail := raw_tail, fresh := s.fresh + 1 }

/-- `List::pop`: `self.head.take().map(|node| { self.head = node.next;
if self.head.is_none() { self.tail = ptr::null_mut(); } node.elem })`.
The popped box is freed (its address becomes unallocated). -/
def List.pop (s : List T) : Option T × List T :=
  if s.head = 0 then (none, s)
  else
    match s.heap s.head with
    | none => (none, s)
    | some node =>
        (some node.elem,
         { heap := fun b => if b = s.head then none else s.heap b,
           head := node.next,
           tail := if node.next = 0 then 0 else s.tail,
           fresh := s.fresh })

/-- Push a whole sequence of elements, left to right. -/
def List.pushAll (s : List T) (xs : Sq T) : List T :=
  xs.foldl List.push s

/-- Pop `n` times, collecting the results in order. -/
def List.popN : List T → Nat → Sq (Option T) × List T
  | s, 0 => ([], s)
  | s, n + 1 =>
      let r := s.pop
      let rest := r.2.popN n
      (r.1 :: rest.1, rest.2)

/-- Loop of `impl Drop for List`:
`let mut cur_link = self.head.take();
 while let Some(mut boxed_node) = cur_link { cur_link = boxed_node.next.take(); }`.
Each iteration frees the current box and advances to its successor. Returns the
final heap and the number of iterations; `fuel` at least the chain length is
enough. -/
def dropLoop (h : Nat → Option (Node T)) (cur : Nat) : Nat → (Nat → Option (Node T)) × Nat
  | 0 => (h, 0)
  | fuel + 1 =>
      if cur = 0 then (h, 0)
      else
        match h cur with
        | none => (h, 0)
        | some nd =>
            let rest := dropLoop (fun b => if b = cur then none else h b) nd.next fuel
            (rest.1, rest.2 + 1)

/-- Chain predicate: from address `a`, following `next` links through heap `h`
visits exactly the addresses `as` (in order), holding elements `xs`, and ends
at the null sentinel. -/
inductive Chain (h : Nat → Option (Node T)) : Nat → Sq Nat → Sq T → Prop where
  | nil : Chain h 0 [] []
  | cons {a : Nat} {nd : Node T} {as : Sq Nat} {xs : Sq T} :
      a ≠ 0 → h a = some nd → Chain h nd.next as xs →
      Chain h a (a :: as) (nd.elem :: xs)

/-- Abstraction relation: the queue state `s` represents the element sequence
`xs`. The chain addresses are pairwise distinct, fresh addresses are really
fresh, and the cached `tail` is the address of the last chain node (0 when the
chain is empty). -/
def Abs (s : List T) (xs : Sq T) : Prop :=
  ∃ as : Sq Nat,
    Chain s.heap s.head as xs ∧
    as.Nodup ∧
    (∀ a ∈ as, a < s.fresh) ∧
    0 < s.fresh ∧
    s.tail = (as.getLast?).getD 0

/-- States reachable through the public API (`new`, `push`, `pop`). -/
inductive Reachable : List T → Prop where
  | new : Reachable List.new
  | push {s : List T} {x : T} : Reachable s → Reachable (s.push x)
  | pop {s : List T} : Reachable s → Reachable (s.pop).2

/-- Concrete reachable queue used as a test fixture: `new; push 1; push 2; pop`. -/
def sampleState : List Nat :=
  ((((List.new : List Nat).push 1).push 2).pop).2

end UnsafeDeque

namespace Fourth

/-- Borrow state of one `RefCell`: free, borrowed by `count` live `Ref`s, or
exclusively borrowed by one live `RefMut`. -/
inductive BorrowFlag where
  | free : BorrowFlag
  | reading (count : Nat) : BorrowFlag
  | writing : BorrowFlag
deriving DecidableEq

/-- Node from fourth.rs: `struct Node<T> { elem: T, next: Link<T>, prev: Link<T> }`
with `Link<T> = Option<Rc<RefCell<Node<T>>>>`. An `Rc<RefCell<Node<T>>>` is
modelled as a heap address, and `flag` carries the `RefCell` borrow state. -/
structure Node (T : Type) where
  elem : T
  next : Option Nat
  prev : Option Nat
  flag : BorrowFlag
deriving DecidableEq

/-- List from fourth.rs: `pub struct List<T> { head: Link<T>, tail: Link<T> }`.
`heap` is the store of live `Rc<RefCell<Node>>` allocations, `fresh` the next
address the allocator hands out. -/
structure List (T : Type) where
  heap : Sq (Nat × Node T)
  head : Option Nat
  tail : Option Nat
  fresh : Nat
deriving DecidableEq

/-- Look up the node allocated at address `a`. -/
def hFind (h : Sq (Nat × Node T)) (a : Nat) : Option (Node T) :=
  match h with
  | [] => none
  | (b, nd) :: rest => if a = b then some nd else hFind rest a

/-- Overwrite the node stored at address `a`. -/
def hSet : Sq (Nat × Node T) → Nat → Node T → Sq (Nat × Node T)
  | [], _, _ => []
  | (b, old) :: rest, a, nd =>
      if b = a then (a, nd) :: hSet rest a nd else (b, old) :: hSet rest a nd

/-- Deallocate the node stored at address `a`. -/
def hErase : Sq (Nat × Node T) → Nat → Sq (Nat × Node T)
  | [], _ => []
  | (b, nd) :: rest, a =>
      if b = a then hErase rest a else (b, nd) :: hErase rest a

/-- Addresses of the live allocations. -/
def keys (h : Sq (Nat × Node T)) : Sq Nat :=
  h.map Prod.fst

/-- Count of `some a` among an optional link (0 or 1). -/
def oCount (o : Option Nat) (a : Nat) : Nat :=
  if o = some a then 1 else 0

/-- References to address `a` held in `prev`/`next` fields of stored nodes. -/
def fieldRefs : Sq (Nat × Node T) → Nat → Nat
  | [], _ => 0
  | (_, nd) :: rest, a => oCount nd.prev a + oCount nd.next a + fieldRefs rest a

/-- Structural strong count of the `Rc` at address `a`: references held by
`self.head`, `self.tail`, and every node's `prev`/`next` field. In fourth.rs
these are exactly the persistent `Rc` clones, so `Rc::try_unwrap` on a handle
just taken out of the structure succeeds precisely when this count is 0. -/
def refCount (s : List T) (a : Nat) : Nat :=
  oCount s.head a + oCount s.tail a + fieldRefs s.heap a

/-- `Node::new`: `Rc::new(RefCell::new(Node { elem, prev: None, next: None }))`
— the allocation itself is done at the use sites. -/
def Node.mkNew (elem : T) : Node T := ⟨elem, none, none, .free⟩

/-- `List::new`: `List { head: None, tail: None }`. -/
def List.new {T : Type} : List T := ⟨[], none, none, 1⟩

/-- `List::push_front`: allocate `new_head`; on `Some(old_head)`, run
`old_head.borrow_mut().prev = Some(new_head.clone())` (panics — `.error ()` —
if `old_head` is currently borrowed), `new_head.borrow_mut().next =
Some(old_head)`, `self.head = Some(new_head)`; on `None`, both `tail` and
`head` become the new node. -/
def List.push_front (s : List T) (elem : T) : Except Unit (List T) :=
  let a := s.fresh
  match s.head with
  | some old_head =>
      match hFind s.heap old_head with
      | none => .error ()
      | some nd =>
          if nd.flag = .free then
            .ok { heap := (a, { Node.mkNew elem with next := some old_head }) ::
                    hSet s.heap old_head { nd with prev := some a },
                  head := some a, tail := s.tail, fresh := s.fresh + 1 }
          else .error ()
  | none =>
      .ok { heap := (a, Node.mkNew elem) :: s.heap,
            head := some a, tail := some a, fresh := s.fresh + 1 }

/-- `List::push_back`: mirror image of `push_front` on `tail`/`next`. -/
def List.push_back (s : List T) (elem : T) : Except Unit (List T) :=
  let a := s.fresh
  match s.tail with
  | some old_tail =>
      match hFind s.heap old_tail with
      | none => .error ()
      | some nd =>
          if nd.flag = .free then
            .ok { heap := (a, { Node.mkNew elem with prev := some old_tail }) ::
                    hSet s.heap old_tail { nd with next := some a },
                  head := s.head, tail := some a, fresh := s.fresh + 1 }
          else .error ()
  | none =>
      .ok { heap := (a, Node.mkNew elem) :: s.heap,
            head := some a, tail := some a, fresh := s.fresh + 1 }

/-- `List::pop_front`: `self.head.take().map(|old_head| ...)`. The borrow
`old_head.borrow_mut().next.take()` panics if `old_head` is borrowed; on
`Some(new_head)` the new head's `prev` is taken and `self.head` updated, on
`None` the list became empty and `self.tail.take()` clears the tail. Finally
`Rc::try_unwrap(old_head).ok().unwrap().into_inner().elem` — the unwrap panics
unless the detached node's strong count is exactly the local handle. -/
def List.pop_front (s : List T) : Except Unit (Option T × List T) :=
  match s.head with
  | none => .ok (none, s)
  | some old_head =>
      match hFind s.heap old_head with
      | none => .error ()
      | some nd =>
          if nd.flag = .free then
            let heap1 := hSet s.heap old_head { nd with next := none }
            match nd.next with
            | some new_head =>
                match hFind heap1 new_head with
                | none => .error ()
                | some nd2 =>
                    if nd2.flag = .free then
                      let s2 : List T :=
                        ⟨hSet heap1 new_head { nd2 with prev := none },
                         some new_head, s.tail, s.fresh⟩
                      if refCount s2 old_head = 0 then
                        .ok (some nd.elem, { s2 with heap := hErase s2.heap old_head })
                      else .error ()
                    else .error ()
            | none =>
                let s2 : List T := ⟨heap1, none, none, s.fresh⟩
                if refCount s2 old_head = 0 then
                  .ok (some nd.elem, { s2 with heap := hErase s2.heap old_head })
                else .error ()
          else .error ()

/-- `List::pop_back`: mirror image of `pop_front` on `tail`/`prev`. -/
def List.pop_back (s : List T) : Except Unit (Option T × List T) :=
  match s.tail with
  | none => .ok (none, s)
  | some old_tail =>
      match hFind s.heap old_tail with
      | none => .error ()
      | some nd =>
          if nd.flag = .free then
            let heap1 := hSet s.heap old_tail { nd with prev := none }
            match nd.prev with
            | some new_tail =>
                match hFind heap1 new_tail with
                | none => .error ()
                | some nd2 =>
                    if nd2.flag = .free then
                      let s2 : List T :=
                        ⟨hSet heap1 new_tail { nd2 with next := none },
                         s.head, some new_tail, s.fresh⟩
                      if refCount s2 old_tail = 0 then
                        .ok (some nd.elem, { s2 with heap := hErase s2.heap old_tail })
                      else .error ()
                    else .error ()
            | none =>
                let s2 : List T := ⟨heap1, none, none, s.fresh⟩
                if refCount s2 old_tail = 0 then
                  .ok (some nd.elem, { s2 with heap := hErase s2.heap old_tail })
                else .error ()
          else .error ()

/-- `List::peek_front`: `self.head.as_ref().map(|head| Ref::map(head.borrow(), ...))`.
`borrow()` panics while a `RefMut` of the same cell is live; on success a live
`Ref` is recorded in the node's flag, and the view `(address, element)` is
returned together with the updated state. -/
def List.peek_front (s : List T) : Except Unit (Option (Nat × T) × List T) :=
  match s.head with
  | none => .ok (none, s)
  | some a =>
      match hFind s.heap a with
      | none => .error ()
      | some nd =>
          match nd.flag with
          | .writing => .error ()
          | .free =>
              .ok (some (a, nd.elem),
                   { s with heap := hSet s.heap a { nd with flag := .reading 1 } })
          | .reading n =>
              .ok (some (a, nd.elem),
                   { s with heap := hSet s.heap a { nd with flag := .reading (n + 1) } })

/-- `List::peek_front_mut`: `RefMut::map(head.borrow_mut(), ...)`.
`borrow_mut()` panics unless the cell is entirely unborrowed. -/
def List.peek_front_mut (s : List T) : Except Unit (Option (Nat × T) × List T) :=
  match s.head with
  | none => .ok (none, s)
  | some a =>
      match hFind s.heap a with
      | none => .error ()
      | some nd =>
          if nd.flag = .free then
            .ok (some (a, nd.elem),
                 { s with heap := hSet s.heap a { nd with flag := .writing } })
          else .error ()

/-- `List::peek_back`: like `peek_front` on `tail`. -/
def List.peek_back (s : List T) : Except Unit (Option (Nat × T) × List T) :=
  match s.tail with
  | none => .ok (none, s)
  | some a =>
      match hFind s.heap a with
      | none => .error ()
      | some nd =>
          match nd.flag with
          | .writing => .error ()
          | .free =>
              .ok (some (a, nd.elem),
                   { s with heap := hSet s.heap a { nd with flag := .reading 1 } })
          | .reading n =>
              .ok (some (a, nd.elem),
                   { s with heap := hSet s.heap a { nd with flag := .reading (n + 1) } })

/-- `List::peek_back_mut`: like `peek_front_mut` on `tail`. -/
def List.peek_back_mut (s : List T) : Except Unit (Option (Nat × T) × List T) :=
  match s.tail with
  | none => .ok (none, s)
  | some a =>
      match hFind s.heap a with
      | none => .error ()
      | some nd =>
          if nd.flag = .free then
            .ok (some (a, nd.elem),
                 { s with heap := hSet s.heap a { nd with flag := .writing } })
          else .error ()

/-- Drop of a `Ref` view onto the node at address `a`: the `RefCell`'s reader
count decreases by one. -/
def releaseRead (s : List T) (a : Nat) : List T :=
  match hFind s.heap a with
  | some nd =>
      match nd.flag with
      | .reading (n + 1) =>
          let nd' : Node T := { nd with flag := if n = 0 then .free else .reading n }
          { s with heap := hSet s.heap a nd' }
      | _ => s
  | none => s

/-- Drop of a `RefMut` view onto the node at address `a`: the `RefCell`
becomes unborrowed again. -/
def releaseWrite (s : List T) (a : Nat) : List T :=
  match hFind s.heap a with
  | some nd =>
      match nd.flag with
      | .writing => { s with heap := hSet s.heap a { nd with flag := .free } }
      | _ => s
  | none => s

/-- Loop of `impl Drop for List`: `while self.pop_front().is_some() {}`.
Returns the final state and the number of elements popped; the loop also stops
if `pop_front` panics (which destruction of a well-formed deque never does). -/
def dropLoop (s : List T) : Nat → List T × Nat
  | 0 => (s, 0)
  | fuel + 1 =>
      match s.pop_front with
      | .ok (some _, s1) =>
          let rest := dropLoop s1 fuel
          (rest.1, rest.2 + 1)
      | .ok (none, s1) => (s1, 0)
      | .error _ => (s, 0)

/-- Doubly-linked chain predicate: starting from link `o` whose owner's
back-link is `p`, the heap contains the chain of addresses `as`; every node's
`prev` points to its predecessor and the last node's `next` is `none`. -/
inductive DChain (h : Sq (Nat × Node T)) : Option Nat → Option Nat → Sq Nat → Prop where
  | nil (p : Option Nat) : DChain h p none []
  | cons {p : Option Nat} {a : Nat} {nd : Node T} {as : Sq Nat} :
      hFind h a = some nd → nd.prev = p → DChain h (some a) nd.next as →
      DChain h p (some a) (a :: as)

/-- Structural invariant of the deque: the heap consists exactly of a doubly
linked chain from `head` to `tail`, with distinct, fresh-bounded addresses and
no live borrows. -/
def Inv (s : List T) : Prop :=
  ∃ as : Sq Nat,
    DChain s.heap none s.head as ∧
    s.tail = as.getLast? ∧
    (∀ a, a ∈ keys s.heap ↔ a ∈ as) ∧
    (keys s.heap).Nodup ∧
    as.Nodup ∧
    (∀ a ∈ as, a < s.fresh) ∧
    (∀ a nd, hFind s.heap a = some nd → nd.flag = .free)

/-- Scenario of the `basics` test at the front end:
`push_front(1); push_front(2); push_front(3)` then three `pop_front`s,
collecting the returned elements. -/
def runFront3 : Except Unit (Option Nat × Option Nat × Option Nat) := do
  let s1 ← (List.new : List Nat).push_front 1
  let s2 ← s1.push_front 2
  let s3 ← s2.push_front 3
  let (r1, t1) ← s3.pop_front
  let (r2, t2) ← t1.pop_front
  let (r3, _) ← t2.pop_front
  pure (r1, r2, r3)

/-- Mirror scenario at the back end: `push_back(1); push_back(2);
push_back(3)` then three `pop_back`s. -/
def runBack3 : Except Unit (Option Nat × Option Nat × Option Nat) := do
  let s1 ← (List.new : List Nat).push_back 1
  let s2 ← s1.push_back 2
  let s3 ← s2.push_back 3
  let (r1, t1) ← s3.pop_back
  let (r2, t2) ← t1.pop_back
  let (r3, _) ← t2.pop_back
  pure (r1, r2, r3)

/-- The deque holding the single element 1: the result of `push_front(1)` on
an empty deque (head and tail are the same node, at address 1). -/
def oneElem : List Nat := ⟨[(1, ⟨1, none, none, .free⟩)], some 1, some 1, 2⟩

/-- `oneElem` while the `RefMut` view returned by `peek_front_mut` is live:
the shared node's cell is exclusively borrowed. -/
def oneElemW : List Nat := ⟨[(1, ⟨1, none, none, .writing⟩)], some 1, some 1, 2⟩

/-- States reachable through the mutating public API: `new`, `push_front`,
`push_back`, `pop_front`, `pop_back` (along non-panicking executions). -/
inductive Reach : List T → Prop where
  | new : Reach List.new
  | push_front {s s' : List T} {x : T} :
      Reach s → s.push_front x = .ok s' → Reach s'
  | push_back {s s' : List T} {x : T} :
      Reach s → s.push_back x = .ok s' → Reach s'
  | pop_front {s s' : List T} {r : Option T} :
      Reach s → s.pop_front = .ok (r, s') → Reach s'
  | pop_back {s s' : List T} {r : Option T} :
      Reach s → s.pop_back = .ok (r, s') → Reach s'

end Fourth

/-! ## Lemmas about the raw-tail queue (unsafe_deque.rs) -/

namespace UnsafeDeque

theorem queue_chain_ne_zero {T : Type} {h : Nat → Option (Node T)} {p : Nat}
    {as : Sq Nat} {xs : Sq T} (hc : Chain h p as xs) : ∀ b ∈ as, b ≠ 0 := by
  induction hc with
  | nil => intro b hb; cases hb
  | cons h0 hfind hrest ih =>
    intro b hb
    rcases List.mem_cons.mp hb with rfl | hb
    · exact h0
    · exact ih b hb

theorem queue_chain_congr {T : Type} {h h' : Nat → Option (Node T)} {p : Nat}
    {as : Sq Nat} {xs : Sq T} (hc : Chain h p as xs)
    (hagree : ∀ b ∈ as, h' b = h b) : Chain h' p as xs := by
  induction hc with
  | nil => exact Chain.nil
  | cons h0 hfind hrest ih =>
    refine Chain.cons h0 ?_ (ih ?_)
    · rw [hagree _ (List.mem_cons_self _ _)]; exact hfind
    · intro b hb; exact hagree b (List.mem_cons_of_mem _ hb)

theorem queue_chain_zero {T : Type} {h : Nat → Option (Node T)}
    {as : Sq Nat} {xs : Sq T} (hc : Chain h 0 as xs) : as = [] ∧ xs = [] := by
  cases hc with
  | nil => exact ⟨rfl, rfl⟩
  | cons h0 _ _ => exact absurd rfl h0

theorem queue_chain_nil_inv {T : Type} {h : Nat → Option (Node T)} {p : Nat}
    {xs : Sq T} (hc : Chain h p [] xs) : p = 0 ∧ xs = [] := by
  cases hc
  exact ⟨rfl, rfl⟩

theorem queue_chain_elems_nil {T : Type} {h : Nat → Option (Node T)} {p : Nat}
    {as : Sq Nat} (hc : Chain h p as []) : p = 0 ∧ as = [] := by
  cases hc
  exact ⟨rfl, rfl⟩

theorem queue_chain_elems_cons {T : Type} {h : Nat → Option (Node T)} {p : Nat}
    {x : T} {as : Sq Nat} {xs : Sq T} (hc : Chain h p as (x :: xs)) :
    ∃ nd as', p ≠ 0 ∧ h p = some nd ∧ nd.elem = x ∧ as = p :: as' ∧
      Chain h nd.next as' xs := by
  cases hc with
  | cons h0 hfind hrest => exact ⟨_, _, h0, hfind, rfl, rfl, hrest⟩

theorem queue_chain_cons_of {T : Type} {h : Nat → Option (Node T)} {c : Nat}
    {nd : Node T} {as : Sq Nat} {xs : Sq T} (h0 : c ≠ 0) (hfind : h c = some nd)
    (hrest : Chain h nd.next as xs) {e : T} (he : nd.elem = e) :
    Chain h c (c :: as) (e :: xs) :=
  he ▸ Chain.cons h0 hfind hrest

theorem queue_chain_snoc {T : Type} {h h' : Nat → Option (Node T)} {a t : Nat}
    {v : T} (hnew : h' a = some ⟨v, 0⟩)
    (htail : h' t = (h t).map fun nd => ⟨nd.elem, a⟩)
    (hother : ∀ b, b ≠ a → b ≠ t → h' b = h b)
    (ha0 : a ≠ 0) :
    ∀ {p : Nat} {as : Sq Nat} {xs : Sq T}, Chain h p as xs →
      as.getLast? = some t → a ∉ as → as.Nodup →
      Chain h' p (as ++ [a]) (xs ++ [v]) := by
  intro p as xs hc
  induction hc with
  | nil => intro hlast; simp at hlast
  | @cons c nd as' xs' h0 hfind hrest ih =>
    intro hlast hmem hnodup
    have hca : c ≠ a := fun hca => hmem (hca ▸ List.mem_cons_self _ _)
    cases as' with
    | nil =>
      have ht : t = c := by
        simp [List.getLast?] at hlast
        exact hlast.symm
      obtain ⟨hnext, hxs⟩ := queue_chain_nil_inv hrest
      subst hxs
      rw [ht] at htail
      have hc' : h' c = some ⟨nd.elem, a⟩ := by
        rw [htail, hfind]; rfl
      have hstep : Chain h' a [a] [v] :=
        queue_chain_cons_of ha0 hnew Chain.nil rfl
      exact queue_chain_cons_of h0 hc' hstep rfl
    | cons d rest =>
      have hlast' : (d :: rest).getLast? = some t := by
        rw [List.getLast?_cons_cons] at hlast
        exact hlast
      have htmem : t ∈ d :: rest := List.mem_of_getLast?_eq_some hlast'
      have hcnotin : c ∉ d :: rest := (List.nodup_cons.mp hnodup).1
      have hct : c ≠ t := fun hct => hcnotin (hct ▸ htmem)
      have hc' : h' c = some nd := by
        rw [hother c hca hct]; exact hfind
      have ihr := ih hlast' (fun hmem' => hmem (List.mem_cons_of_mem _ hmem'))
        (List.nodup_cons.mp hnodup).2
      exact Chain.cons h0 hc' ihr

theorem queue_push_empty {T : Type} (s : List T) (x : T) (ht : s.tail = 0) :
    s.push x =
      { heap := fun b => if b = s.fresh then some ⟨x, 0⟩ else s.heap b,
        head := s.fresh, tail := s.fresh, fresh := s.fresh + 1 } := by
  simp [List.push, ht]

theorem queue_push_nonempty {T : Type} (s : List T) (x : T) (ht : s.tail ≠ 0) :
    s.push x =
      { heap := fun b =>
          if b = s.fresh then some ⟨x, 0⟩
          else if b = s.tail then (s.heap b).map fun nd => ⟨nd.elem, s.fresh⟩
          else s.heap b,
        head := s.head, tail := s.fresh, fresh := s.fresh + 1 } := by
  rw [List.push, if_neg ht]

theorem queue_abs_new {T : Type} : Abs (List.new : List T) [] := by
  refine ⟨[], Chain.nil, List.nodup_nil, ?_, Nat.one_pos, rfl⟩
  intro a ha; cases ha

theorem queue_abs_push {T : Type} {s : List T} {xs : Sq T} (h : Abs s xs)
    (x : T) : Abs (s.push x) (xs ++ [x]) := by
  obtain ⟨as, hc, hnodup, hlt, hfpos, htail⟩ := h
  have hfresh0 : s.fresh ≠ 0 := Nat.pos_iff_ne_zero.mp hfpos
  by_cases ht : s.tail = 0
  · -- empty chain: the new node becomes head and tail
    have hasnil : as = [] := by
      cases has : as.getLast? with
      | none => exact List.getLast?_eq_none_iff.mp has
      | some b =>
        exfalso
        have hb : b ∈ as := List.mem_of_getLast?_eq_some has
        have hsb : s.tail = b := by rw [htail, has]; rfl
        exact queue_chain_ne_zero hc b hb (by rw [← hsb, ht])
    subst hasnil
    obtain ⟨hhead, hxs⟩ := queue_chain_nil_inv hc
    subst hxs
    rw [queue_push_empty s x ht]
    refine ⟨[s.fresh], ?_, List.nodup_singleton _, ?_, ?_, ?_⟩
    · have hfind : (fun b => if b = s.fresh then some (⟨x, 0⟩ : Node T)
          else s.heap b) s.fresh = some ⟨x, 0⟩ := by simp
      exact queue_chain_cons_of hfresh0 hfind Chain.nil rfl
    · intro a ha
      rcases List.mem_singleton.mp ha with rfl
      exact Nat.lt_succ_self _
    · exact Nat.succ_pos _
    · rfl
  · -- non-empty chain: append behind the cached tail
    have hasne : as ≠ [] := by
      intro hnil
      subst hnil
      exact ht (by rw [htail]; rfl)
    obtain ⟨t, hlastt⟩ := Option.isSome_iff_exists.mp (List.getLast?_isSome.mpr hasne)
    have httail : s.tail = t := by rw [htail, hlastt]; rfl
    have htas : t ∈ as := List.mem_of_getLast?_eq_some hlastt
    have htfresh : t ≠ s.fresh := Nat.ne_of_lt (hlt t htas)
    have hfreshnot : s.fresh ∉ as := fun hmem => Nat.lt_irrefl _ (hlt _ hmem)
    rw [queue_push_nonempty s x ht]
    refine ⟨as ++ [s.fresh], ?_, ?_, ?_, ?_, ?_⟩
    · refine queue_chain_snoc (h := s.heap) (t := t) ?_ ?_ ?_ hfresh0 hc ?_ hfreshnot hnodup
      · simp
      · dsimp only
        rw [if_neg htfresh, httail, if_pos rfl]
      · intro b hba hbt
        dsimp only
        rw [if_neg hba, httail, if_neg hbt]
      · exact hlastt
    · refine List.Nodup.append hnodup (List.nodup_singleton _) ?_
      intro b hb hbmem
      rcases List.mem_singleton.mp hbmem with rfl
      exact hfreshnot hb
    · intro b hb
      rcases List.mem_append.mp hb with hmem | hmem
      · exact Nat.lt_succ_of_lt (hlt b hmem)
      · rcases List.mem_singleton.mp hmem with rfl
        exact Nat.lt_succ_self _
    · exact Nat.succ_pos _
    · rw [List.getLast?_concat]; rfl

theorem queue_abs_pop_nil {T : Type} {s : List T} (h : Abs s []) :
    s.pop = (none, s) := by
  obtain ⟨as, hc, -, -, -, -⟩ := h
  obtain ⟨hh, -⟩ := queue_chain_elems_nil hc
  simp [List.pop, hh]

theorem queue_abs_pop_cons {T : Type} {s : List T} {x : T} {xs : Sq T}
    (h : Abs s (x :: xs)) : (s.pop).1 = some x ∧ Abs (s.pop).2 xs := by
  obtain ⟨as, hc, hnodup, hlt, hfpos, htail⟩ := h
  obtain ⟨nd, as', h0, hfind, helem, has, hrest⟩ := queue_chain_elems_cons hc
  subst has
  have hpop : s.pop =
      (some nd.elem,
       { heap := fun b => if b = s.head then none else s.heap b,
         head := nd.next,
         tail := if nd.next = 0 then 0 else s.tail,
         fresh := s.fresh }) := by
    simp [List.pop, h0, hfind]
  have hanotin : s.head ∉ as' := (List.nodup_cons.mp hnodup).1
  constructor
  · rw [hpop, helem]
  · rw [hpop]
    refine ⟨as', ?_, (List.nodup_cons.mp hnodup).2, ?_, hfpos, ?_⟩
    · refine queue_chain_congr hrest ?_
      intro b hb
      have hba : b ≠ s.head := fun hba => hanotin (hba ▸ hb)
      simp [hba]
    · intro b hb
      exact hlt b (List.mem_cons_of_mem _ hb)
    · by_cases hn : nd.next = 0
      · obtain ⟨hnil, -⟩ := queue_chain_zero (hn ▸ hrest)
        subst hnil
        simp [hn]
      · have hasne : as' ≠ [] := by
          intro hnil
          subst hnil
          exact hn (queue_chain_nil_inv hrest).1
        rw [if_neg hn, htail]
        cases as' with
        | nil => exact absurd rfl hasne
        | cons d rest => rw [List.getLast?_cons_cons]

theorem queue_reachable_abs {T : Type} {s : List T} (hr : Reachable s) :
    ∃ xs : Sq T, Abs s xs := by
  induction hr with
  | new => exact ⟨[], queue_abs_new⟩
  | push hr ih =>
    obtain ⟨xs, habs⟩ := ih
    exact ⟨xs ++ [_], queue_abs_push habs _⟩
  | pop hr ih =>
    obtain ⟨xs, habs⟩ := ih
    cases xs with
    | nil =>
      rw [queue_abs_pop_nil habs]
      exact ⟨[], habs⟩
    | cons x xs => exact ⟨xs, (queue_abs_pop_cons habs).2⟩

theorem queue_abs_pushAll {T : Type} {s : List T} {l : Sq T} (h : Abs s l)
    (xs : Sq T) : Abs (s.pushAll xs) (l ++ xs) := by
  induction xs generalizing s l with
  | nil => simpa [List.pushAll] using h
  | cons x xs ih =>
    have h1 : Abs (s.push x) (l ++ [x]) := queue_abs_push h x
    have h2 := ih h1
    simpa [List.pushAll, List.foldl] using h2

theorem queue_abs_popN {T : Type} {s : List T} {l : Sq T} (h : Abs s l) :
    ((s.popN l.length).1 = l.map some) ∧ Abs (s.popN l.length).2 [] := by
  induction l generalizing s with
  | nil => exact ⟨rfl, h⟩
  | cons x xs ih =>
    obtain ⟨h1, h2⟩ := queue_abs_pop_cons h
    have hrec := ih h2
    constructor
    · simp only [List.length_cons, List.popN, List.map_cons]
      rw [← h1, ← hrec.1]
    · simp only [List.length_cons, List.popN]
      exact hrec.2

end UnsafeDeque

/-! ## Claims C1 and C2: the raw-tail queue -/

/-- C1: RawTailQueue tail-lockstep invariant — after every public operation
(`new`, `push`, `pop`), if the head chain is empty then the cached tail
pointer is the null sentinel, and if the head chain is non-empty then the tail
pointer references the last node reachable from `head` by following `next`
links; in particular a pop that empties the chain resets `tail` to null. -/
theorem c1_rawtailqueue_tail_lockstep {T : Type} (s : UnsafeDeque.List T)
    (hr : UnsafeDeque.Reachable s) :
    (s.head = 0 → s.tail = 0) ∧
    (s.head ≠ 0 → ∃ as xs, UnsafeDeque.Chain s.heap s.head as xs ∧
      as ≠ [] ∧ as.getLast? = some s.tail) := by
  obtain ⟨xs, as, hc, hnodup, hlt, hfpos, htail⟩ :=
    UnsafeDeque.queue_reachable_abs hr
  constructor
  · intro hh
    obtain ⟨hasnil, -⟩ := UnsafeDeque.queue_chain_zero (hh ▸ hc)
    subst hasnil
    rw [htail]; rfl
  · intro hh
    have hne : as ≠ [] := by
      intro hnil
      subst hnil
      exact hh (UnsafeDeque.queue_chain_nil_inv hc).1
    obtain ⟨t, hlastt⟩ :=
      Option.isSome_iff_exists.mp (List.getLast?_isSome.mpr hne)
    have hst : s.tail = t := by rw [htail, hlastt]; rfl
    refine ⟨as, xs, hc, hne, ?_⟩
    rw [hst]
    exact hlastt

/-- Witness for C1 at the concrete reachable state `new; push 1; push 2; pop`. -/
theorem c1_rawtailqueue_tail_lockstep_witness :
    (UnsafeDeque.sampleState.head = 0 → UnsafeDeque.sampleState.tail = 0) ∧
    (UnsafeDeque.sampleState.head ≠ 0 →
      ∃ as xs, UnsafeDeque.Chain UnsafeDeque.sampleState.heap
        UnsafeDeque.sampleState.head as xs ∧ as ≠ [] ∧
        as.getLast? = some UnsafeDeque.sampleState.tail) :=
  c1_rawtailqueue_tail_lockstep UnsafeDeque.sampleState
    (UnsafeDeque.Reachable.pop
      (UnsafeDeque.Reachable.push (UnsafeDeque.Reachable.push UnsafeDeque.Reachable.new)))

/-- C2: RawTailQueue FIFO order and post-drain reuse — pushing 1, 2, 3 then
popping twice returns `some 1` then `some 2`; and from any reachable queue on
which `pop` reports emptiness (`none`), pushing a sequence of elements and
popping that many times returns exactly those elements, in push order. -/
theorem c2_rawtailqueue_fifo :
    (((((((UnsafeDeque.List.new : UnsafeDeque.List Nat).push 1).push 2).push 3).popN
        2).1 = [some 1, some 2])) ∧
    (∀ (T : Type) (s : UnsafeDeque.List T) (xs : Sq T),
      UnsafeDeque.Reachable s → (s.pop).1 = none →
      ((((s.pop).2.pushAll xs).popN xs.length).1 = xs.map some)) := by
  constructor
  · rfl
  · intro T s xs hr hnone
    obtain ⟨l, habs⟩ := UnsafeDeque.queue_reachable_abs hr
    have hlnil : l = [] := by
      cases l with
      | nil => rfl
      | cons y l' =>
        have := (UnsafeDeque.queue_abs_pop_cons habs).1
        rw [this] at hnone
        cases hnone
    subst hlnil
    have hpop := UnsafeDeque.queue_abs_pop_nil habs
    rw [hpop]
    have habs2 : UnsafeDeque.Abs ((UnsafeDeque.List.pushAll s xs)) ([] ++ xs) :=
      UnsafeDeque.queue_abs_pushAll habs xs
    rw [List.nil_append] at habs2
    exact (UnsafeDeque.queue_abs_popN habs2).1

/-- Witness for C2's universally quantified part: drain a fresh queue, then
push `[4, 5]` and pop twice. -/
theorem c2_rawtailqueue_fifo_witness :
    ((((UnsafeDeque.List.new : UnsafeDeque.List Nat).pop).2.pushAll
        [4, 5]).popN ([4, 5] : Sq Nat).length).1 = ([4, 5] : Sq Nat).map some :=
  c2_rawtailqueue_fifo.2 Nat UnsafeDeque.List.new [4, 5]
    UnsafeDeque.Reachable.new rfl

/-! ## Lemmas about the persistent list (third.rs) -/

namespace Third

theorem pers_findEntry_key_mem {T : Type} {a : Nat} {p : Node T × Nat}
    {es : Sq (Nat × Node T × Nat)} (h : findEntry a es = some p) :
    ∃ q ∈ es, q.1 = a := by
  induction es with
  | nil => cases h
  | cons q rest ih =>
    obtain ⟨k, nd, c⟩ := q
    by_cases hak : a = k
    · exact ⟨(k, nd, c), List.mem_cons_self _ _, hak.symm⟩
    · simp only [findEntry, if_neg hak] at h
      obtain ⟨q', hq', hk⟩ := ih h
      exact ⟨q', List.mem_cons_of_mem _ hq', hk⟩

theorem pers_find_lt {T : Type} {h : Heap T} {a : Nat} {p : Node T × Nat}
    (hwf : HeapWF h) (hf : h.find a = some p) : a < h.fresh := by
  obtain ⟨q, hq, hk⟩ := pers_findEntry_key_mem hf
  exact hk ▸ hwf q hq

theorem pers_findEntry_incmap {T : Type} (b a : Nat)
    (es : Sq (Nat × Node T × Nat)) :
    findEntry a (es.map fun p => (p.1, p.2.1, if p.1 = b then p.2.2 + 1 else p.2.2)) =
      (findEntry a es).map fun p => (p.1, if a = b then p.2 + 1 else p.2) := by
  induction es with
  | nil => rfl
  | cons q rest ih =>
    obtain ⟨k, nd, c⟩ := q
    by_cases hak : a = k
    · subst hak
      simp [findEntry]
    · simp [findEntry, hak, ih]

theorem pers_findEntry_decmap {T : Type} (b a : Nat)
    (es : Sq (Nat × Node T × Nat)) :
    findEntry a (es.map fun p => (p.1, p.2.1, if p.1 = b then p.2.2 - 1 else p.2.2)) =
      (findEntry a es).map fun p => (p.1, if a = b then p.2 - 1 else p.2) := by
  induction es with
  | nil => rfl
  | cons q rest ih =>
    obtain ⟨k, nd, c⟩ := q
    by_cases hak : a = k
    · subst hak
      simp [findEntry]
    · simp [findEntry, hak, ih]

theorem pers_findEntry_erase_self {T : Type} (b : Nat)
    (es : Sq (Nat × Node T × Nat)) :
    findEntry b (eraseEntry b es) = none := by
  induction es with
  | nil => rfl
  | cons q rest ih =>
    obtain ⟨k, nd, c⟩ := q
    by_cases hkb : k = b
    · subst hkb
      simpa [eraseEntry] using ih
    · simpa [eraseEntry, hkb, findEntry, Ne.symm hkb] using ih

theorem pers_findEntry_erase_ne {T : Type} {b a : Nat} (hab : a ≠ b)
    (es : Sq (Nat × Node T × Nat)) :
    findEntry a (eraseEntry b es) = findEntry a es := by
  induction es with
  | nil => rfl
  | cons q rest ih =>
    obtain ⟨k, nd, c⟩ := q
    by_cases hkb : k = b
    · subst hkb
      simp [eraseEntry, findEntry, hab, ih]
    · by_cases hak : a = k
      · subst hak
        simp [eraseEntry, hkb, findEntry]
      · simpa [eraseEntry, hkb, findEntry, hak] using ih

theorem pers_find_incRef {T : Type} (h : Heap T) (b a : Nat) :
    (h.incRef (some b)).find a =
      (h.find a).map fun p => (p.1, if a = b then p.2 + 1 else p.2) := by
  simp only [Heap.incRef, Heap.find]
  exact pers_findEntry_incmap b a h.entries

theorem pers_find_decRef {T : Type} (h : Heap T) (b a : Nat) :
    (h.decRef b).find a =
      (h.find a).map fun p => (p.1, if a = b then p.2 - 1 else p.2) := by
  simp only [Heap.decRef, Heap.find]
  exact pers_findEntry_decmap b a h.entries

theorem pers_find_free_self {T : Type} (h : Heap T) (b : Nat) :
    (h.free b).find b = none := by
  simp only [Heap.free, Heap.find]
  exact pers_findEntry_erase_self b h.entries

theorem pers_find_free_ne {T : Type} (h : Heap T) {b a : Nat} (hab : a ≠ b) :
    (h.free b).find a = h.find a := by
  simp only [Heap.free, Heap.find]
  exact pers_findEntry_erase_ne hab h.entries

theorem pers_nodeAt_incRef {T : Type} (h : Heap T) (o : Option Nat) (a : Nat) :
    nodeAt (h.incRef o) a = nodeAt h a := by
  cases o with
  | none => rfl
  | some b =>
    simp only [nodeAt, pers_find_incRef]
    cases h.find a <;> rfl

theorem pers_nodeAt_decRef {T : Type} (h : Heap T) (b a : Nat) :
    nodeAt (h.decRef b) a = nodeAt h a := by
  simp only [nodeAt, pers_find_decRef]
  cases h.find a <;> rfl

theorem pers_nodeAt_free_ne {T : Type} (h : Heap T) {b a : Nat} (hab : a ≠ b) :
    nodeAt (h.free b) a = nodeAt h a := by
  simp only [nodeAt, pers_find_free_ne h hab]

theorem pers_incRef_fresh {T : Type} (h : Heap T) (o : Option Nat) :
    (h.incRef o).fresh = h.fresh := by
  cases o <;> rfl

theorem pers_chain_congr {T : Type} {h h' : Heap T} {o : Option Nat}
    {as : Sq Nat} {xs : Sq T} (hc : PChain h o as xs)
    (hagree : ∀ b ∈ as, nodeAt h' b = nodeAt h b) : PChain h' o as xs := by
  induction hc with
  | nil => exact PChain.nil
  | @cons a nd c as' xs' hfind hrest ih =>
    have hna : nodeAt h' a = some nd := by
      rw [hagree a (List.mem_cons_self _ _)]
      simp only [nodeAt, hfind]
      rfl
    have hih := ih fun b hb => hagree b (List.mem_cons_of_mem _ hb)
    cases hf : h'.find a with
    | none => simp only [nodeAt, hf] at hna; cases hna
    | some p =>
      simp only [nodeAt, hf] at hna
      obtain ⟨nd', c'⟩ := p
      have hnd : nd' = nd := by simpa using hna
      subst hnd
      exact PChain.cons hf hih

theorem pers_chain_none {T : Type} {h : Heap T} {as : Sq Nat} {xs : Sq T}
    (hc : PChain h none as xs) : as = [] ∧ xs = [] := by
  cases hc
  exact ⟨rfl, rfl⟩

theorem pers_chain_some {T : Type} {h : Heap T} {a : Nat} {as : Sq Nat}
    {xs : Sq T} (hc : PChain h (some a) as xs) :
    ∃ nd c as' xs', h.find a = some (nd, c) ∧ as = a :: as' ∧
      xs = nd.elem :: xs' ∧ PChain h nd.next as' xs' := by
  cases hc with
  | cons hfind hrest => exact ⟨_, _, _, _, hfind, rfl, rfl, hrest⟩

theorem pers_chain_mem_lt {T : Type} {h : Heap T} {o : Option Nat}
    {as : Sq Nat} {xs : Sq T} (hc : PChain h o as xs) (hwf : HeapWF h) :
    ∀ b ∈ as, b < h.fresh := by
  induction hc with
  | nil => intro b hb; cases hb
  | @cons a nd c as' xs' hfind hrest ih =>
    intro b hb
    rcases List.mem_cons.mp hb with rfl | hb
    · exact pers_find_lt hwf hfind
    · exact ih b hb

theorem pers_append_eq {T : Type} (h : Heap T) (s : List T) (x : T) :
    append h s x =
      (⟨(h.fresh, ⟨x, s.head⟩, 1) :: (h.incRef s.head).entries, h.fresh + 1⟩,
       ⟨some h.fresh⟩) := by
  simp [append, pers_incRef_fresh]

theorem pers_find_append_new {T : Type} (h : Heap T) (s : List T) (x : T) :
    (append h s x).1.find h.fresh = some (⟨x, s.head⟩, 1) := by
  rw [pers_append_eq]
  simp [Heap.find, findEntry]

theorem pers_find_append_old {T : Type} (h : Heap T) (s : List T) (x : T)
    {b : Nat} (hb : b ≠ h.fresh) :
    (append h s x).1.find b = (h.incRef s.head).find b := by
  rw [pers_append_eq]
  simp [Heap.find, findEntry, hb]

theorem pers_nodeAt_append_old {T : Type} (h : Heap T) (s : List T) (x : T)
    {b : Nat} (hb : b ≠ h.fresh) :
    nodeAt (append h s x).1 b = nodeAt h b := by
  rw [nodeAt, pers_find_append_old h s x hb, ← nodeAt]
  exact pers_nodeAt_incRef h s.head b

theorem pers_tail_append {T : Type} (h : Heap T) (s : List T) (x : T) :
    tail (append h s x).1 (append h s x).2 =
      ((append h s x).1.incRef s.head, ⟨s.head⟩) := by
  have hfind := pers_find_append_new h s x
  rw [pers_append_eq] at hfind ⊢
  simp [tail, hfind]

end Third

namespace Third

theorem pers_chain_addr_cons {T : Type} {h : Heap T} {o : Option Nat} {a : Nat}
    {as : Sq Nat} {zs : Sq T} (hc : PChain h o (a :: as) zs) :
    o = some a ∧ ∃ nd c zs', h.find a = some (nd, c) ∧ zs = nd.elem :: zs' ∧
      PChain h nd.next as zs' := by
  cases hc with
  | cons hfind hrest => exact ⟨rfl, _, _, _, hfind, rfl, hrest⟩

end Third

/-! ## Claims C6 and C7: the persistent list -/

/-- C6: PersistentList prepend algebra and frame — `append` (the spec's
`prepend`) returns a new list whose head element is the new value; the fresh
head node's `next` is physically the original list's head link (shared, not
copied), so `tail()` of the new list is rooted at the original head node;
every pre-existing allocation keeps its node contents (only strong counts
change — no existing node is mutated); and the original list's whole chain
remains intact, both in the updated store and in the store after `tail()`. -/
theorem c6_persistent_prepend {T : Type} (h : Third.Heap T) (L1 : Third.List T)
    (x : T) (as : Sq Nat) (xs : Sq T)
    (hwf : Third.HeapWF h) (hchain : Third.PChain h L1.head as xs) :
    Third.headVal (Third.append h L1 x).1 (Third.append h L1 x).2 = some x ∧
    (∃ a nd c, (Third.append h L1 x).2.head = some a ∧
      Third.Heap.find (Third.append h L1 x).1 a = some (nd, c) ∧
      nd.next = L1.head) ∧
    (Third.tail (Third.append h L1 x).1 (Third.append h L1 x).2).2.head = L1.head ∧
    (∀ b nd c, h.find b = some (nd, c) →
      ∃ c', Third.Heap.find (Third.append h L1 x).1 b = some (nd, c')) ∧
    Third.PChain (Third.append h L1 x).1 L1.head as xs ∧
    Third.PChain (Third.tail (Third.append h L1 x).1 (Third.append h L1 x).2).1
      L1.head as xs := by
  have hmemlt := Third.pers_chain_mem_lt hchain hwf
  have hagree : ∀ b ∈ as,
      Third.nodeAt (Third.append h L1 x).1 b = Third.nodeAt h b := by
    intro b hb
    exact Third.pers_nodeAt_append_old h L1 x (Nat.ne_of_lt (hmemlt b hb))
  refine ⟨?_, ?_, ?_, ?_, ?_, ?_⟩
  · rw [Third.pers_append_eq]
    simp [Third.headVal, Third.Heap.find, Third.findEntry]
  · refine ⟨h.fresh, ⟨x, L1.head⟩, 1, ?_, Third.pers_find_append_new h L1 x, rfl⟩
    rw [Third.pers_append_eq]
  · rw [Third.pers_tail_append]
  · intro b nd c hfind
    have hbne : b ≠ h.fresh := Nat.ne_of_lt (Third.pers_find_lt hwf hfind)
    rw [Third.pers_find_append_old h L1 x hbne]
    cases hh : L1.head with
    | none => exact ⟨c, by simpa [Third.Heap.incRef] using hfind⟩
    | some t =>
      rw [Third.pers_find_incRef, hfind]
      exact ⟨if b = t then c + 1 else c, rfl⟩
  · exact Third.pers_chain_congr hchain hagree
  · rw [Third.pers_tail_append]
    refine Third.pers_chain_congr hchain ?_
    intro b hb
    rw [Third.pers_nodeAt_incRef]
    exact hagree b hb

/-- Witness for C6 at the one-node fixture store: prepend 20 to the list `[10]`. -/
theorem c6_persistent_prepend_witness :
    Third.headVal (Third.append Third.sampleHeap Third.sampleList 20).1
      (Third.append Third.sampleHeap Third.sampleList 20).2 = some 20 ∧
    (∃ a nd c, (Third.append Third.sampleHeap Third.sampleList 20).2.head = some a ∧
      Third.Heap.find (Third.append Third.sampleHeap Third.sampleList 20).1 a =
        some (nd, c) ∧ nd.next = Third.sampleList.head) ∧
    (Third.tail (Third.append Third.sampleHeap Third.sampleList 20).1
        (Third.append Third.sampleHeap Third.sampleList 20).2).2.head =
      Third.sampleList.head ∧
    (∀ b nd c, Third.sampleHeap.find b = some (nd, c) →
      ∃ c', Third.Heap.find (Third.append Third.sampleHeap Third.sampleList 20).1 b =
        some (nd, c')) ∧
    Third.PChain (Third.append Third.sampleHeap Third.sampleList 20).1
      Third.sampleList.head [1] [10] ∧
    Third.PChain (Third.tail (Third.append Third.sampleHeap Third.sampleList 20).1
        (Third.append Third.sampleHeap Third.sampleList 20).2).1
      Third.sampleList.head [1] [10] :=
  c6_persistent_prepend Third.sampleHeap Third.sampleList 20 [1] [10]
    (by unfold Third.HeapWF; decide)
    (Third.PChain.cons
      (show Third.sampleHeap.find 1 = some (⟨10, none⟩, 1) from rfl)
      Third.PChain.nil)

/-- C7: PersistentList shared-aware teardown — dropping a list whose chain
starts with solely-owned nodes (`owned`, strong count 1) followed by a node
`b` still referenced elsewhere (count at least 2) frees exactly the
solely-owned prefix, decrements `b`'s count by one while keeping its node
intact, leaves every other allocation untouched, and the remainder of the
chain from `b` stays observable with the same elements. -/
theorem c7_persistent_shared_teardown {T : Type} :
    ∀ (owned : Sq Nat) (h : Third.Heap T) (L : Third.List T) (b : Nat)
      (rest : Sq Nat) (zs : Sq T) (nb : Third.Node T) (cb : Nat),
      Third.PChain h L.head (owned ++ b :: rest) zs →
      (owned ++ b :: rest).Nodup →
      (∀ a ∈ owned, ∃ nd, h.find a = some (nd, 1)) →
      h.find b = some (nb, cb) → 2 ≤ cb →
      (∀ a ∈ owned,
        (Third.dropList h L.head (owned.length + 1)).find a = none) ∧
      (Third.dropList h L.head (owned.length + 1)).find b = some (nb, cb - 1) ∧
      (∀ a, a ∉ owned → a ≠ b →
        (Third.dropList h L.head (owned.length + 1)).find a = h.find a) ∧
      (∃ ys, Third.PChain h (some b) (b :: rest) ys ∧
        Third.PChain (Third.dropList h L.head (owned.length + 1)) (some b)
          (b :: rest) ys) := by
  intro owned
  induction owned with
  | nil =>
    intro h L b rest zs nb cb hchain hnodup howned hb hcb
    obtain ⟨hhead, nd, c, zs', hfind, hzs, hrest⟩ :=
      Third.pers_chain_addr_cons hchain
    have hcb1 : cb ≠ 1 := by omega
    have hdrop : Third.dropList h L.head 1 = h.decRef b := by
      rw [hhead]
      simp [Third.dropList, hb, hcb1]
    rw [List.length_nil, hdrop]
    refine ⟨?_, ?_, ?_, ?_⟩
    · intro a ha; cases ha
    · rw [Third.pers_find_decRef, hb]
      simp
    · intro a hao hab
      rw [Third.pers_find_decRef]
      cases h.find a with
      | none => rfl
      | some p => simp [hab]
    · refine ⟨zs, hhead ▸ hchain, ?_⟩
      refine Third.pers_chain_congr (hhead ▸ hchain) ?_
      intro q hq
      exact Third.pers_nodeAt_decRef h b q
  | cons a owned' ih =>
    intro h L b rest zs nb cb hchain hnodup howned hb hcb
    obtain ⟨hhead, nd, c, zs', hfind, hzs, hrest⟩ :=
      Third.pers_chain_addr_cons hchain
    obtain ⟨nd1, hnd1⟩ := howned a (List.mem_cons_self _ _)
    rw [hfind] at hnd1
    obtain ⟨hnd1a, hc1⟩ : nd = nd1 ∧ c = 1 := by
      have := hnd1
      injection this with h1
      injection h1 with h2 h3
      exact ⟨h2, h3⟩
    subst hc1
    have hanotin : a ∉ owned' ++ b :: rest := (List.nodup_cons.mp hnodup).1
    have hab : a ≠ b := by
      intro hab
      exact hanotin (hab ▸ List.mem_append_right _ (List.mem_cons_self _ _))
    have hstep : Third.dropList h L.head ((a :: owned').length + 1) =
        Third.dropList (h.free a) nd.next (owned'.length + 1) := by
      rw [hhead]
      show Third.dropList h (some a) (owned'.length + 1 + 1) = _
      simp [Third.dropList, hfind]
    set h1 := h.free a with hh1
    have hagree1 : ∀ q ∈ owned' ++ b :: rest,
        Third.nodeAt h1 q = Third.nodeAt h q := by
      intro q hq
      have hqa : q ≠ a := fun hqa => hanotin (hqa ▸ hq)
      exact Third.pers_nodeAt_free_ne h hqa
    have hchain1 : Third.PChain h1 nd.next (owned' ++ b :: rest) zs' :=
      Third.pers_chain_congr hrest hagree1
    have hnodup1 : (owned' ++ b :: rest).Nodup := (List.nodup_cons.mp hnodup).2
    have howned1 : ∀ q ∈ owned', ∃ ndq, h1.find q = some (ndq, 1) := by
      intro q hq
      have hqa : q ≠ a := fun hqa =>
        hanotin (hqa ▸ List.mem_append_left _ hq)
      rw [hh1, Third.pers_find_free_ne h hqa]
      exact howned q (List.mem_cons_of_mem _ hq)
    have hb1 : h1.find b = some (nb, cb) := by
      rw [hh1, Third.pers_find_free_ne h (Ne.symm hab)]
      exact hb
    obtain ⟨hfreed, hbkept, hframe, ys, hysh1, hysdrop⟩ :=
      ih h1 (Third.List.mk nd.next) b rest zs' nb cb hchain1 hnodup1 howned1
        hb1 hcb
    rw [hstep]
    refine ⟨?_, hbkept, ?_, ?_⟩
    · intro q hq
      rcases List.mem_cons.mp hq with rfl | hq
      · have hqown : q ∉ owned' := fun hmem =>
          hanotin (List.mem_append_left _ hmem)
        rw [hframe q hqown hab, hh1]
        exact Third.pers_find_free_self h q
      · exact hfreed q hq
    · intro q hqo hqb
      have hqown : q ∉ owned' := fun hmem => hqo (List.mem_cons_of_mem _ hmem)
      have hqa : q ≠ a := fun hqa => hqo (hqa ▸ List.mem_cons_self _ _)
      rw [hframe q hqown hqb, hh1, Third.pers_find_free_ne h hqa]
    · refine ⟨ys, ?_, hysdrop⟩
      refine Third.pers_chain_congr hysh1 ?_
      intro q hq
      have hqmem : q ∈ owned' ++ b :: rest := List.mem_append_right _ hq
      exact (hagree1 q hqmem).symm

/-- Witness for C7 at the two-node fixture: dropping the list `[20, 10]`
whose tail node (address 1) is shared with a sibling (count 2) frees only the
head node and decrements the shared node's count. -/
theorem c7_persistent_shared_teardown_witness :
    (∀ a ∈ ([2] : Sq Nat),
      (Third.dropList Third.sharedHeap Third.sharedList.head
        (([2] : Sq Nat).length + 1)).find a = none) ∧
    (Third.dropList Third.sharedHeap Third.sharedList.head
      (([2] : Sq Nat).length + 1)).find 1 = some (⟨10, none⟩, 2 - 1) ∧
    (∀ a, a ∉ ([2] : Sq Nat) → a ≠ 1 →
      (Third.dropList Third.sharedHeap Third.sharedList.head
        (([2] : Sq Nat).length + 1)).find a = Third.sharedHeap.find a) ∧
    (∃ ys, Third.PChain Third.sharedHeap (some 1) [1] ys ∧
      Third.PChain (Third.dropList Third.sharedHeap Third.sharedList.head
        (([2] : Sq Nat).length + 1)) (some 1) [1] ys) :=
  c7_persistent_shared_teardown [2] Third.sharedHeap Third.sharedList 1 []
    [20, 10] ⟨10, none⟩ 2
    (Third.PChain.cons
      (show Third.sharedHeap.find 2 = some (⟨20, some 1⟩, 1) from rfl)
      (Third.PChain.cons
        (show Third.sharedHeap.find 1 = some (⟨10, none⟩, 2) from rfl)
        Third.PChain.nil))
    (by decide)
    (by
      intro a ha
      rcases List.mem_singleton.mp ha with rfl
      exact ⟨⟨20, some 1⟩, rfl⟩)
    rfl (by omega)

/-! ## Claim C9: absence is non-fatal -/

/-- C9: for every container variant, a pop or peek on an empty container
returns the optional "nothing present" value and leaves the container
unchanged, and it never panics — for the `RefCell`/`Rc` deque the result is
`Except.ok` (no runtime violation), for the others the operations are total
and return `none` with the state unchanged. -/
theorem c9_empty_absence :
    (∀ s : First.List, s.head = First.Link.Empty → s.pop = (none, s)) ∧
    (∀ s : BadStack.List, s.head = BadStack.Link.Empty → s.pop = (none, s)) ∧
    (∀ (T : Type) (s : Second.List T), s.head = Second.Link.none →
      s.pop = (none, s) ∧ s.peek = none ∧ s.peek_mut = none) ∧
    (∀ (T : Type) (h : Third.Heap T) (L : Third.List T), L.head = none →
      Third.headVal h L = none) ∧
    (∀ (T : Type) (s : Fourth.List T), s.head = none → s.tail = none →
      s.pop_front = .ok (none, s) ∧ s.pop_back = .ok (none, s) ∧
      s.peek_front = .ok (none, s) ∧ s.peek_back = .ok (none, s) ∧
      s.peek_front_mut = .ok (none, s) ∧ s.peek_back_mut = .ok (none, s)) ∧
    (∀ (T : Type) (s : UnsafeDeque.List T), s.head = 0 → s.pop = (none, s)) := by
  refine ⟨?_, ?_, ?_, ?_, ?_, ?_⟩
  · intro s hh
    obtain ⟨hd⟩ := s
    cases hd with
    | Empty => rfl
    | More e n => cases hh
  · intro s hh
    obtain ⟨hd⟩ := s
    cases hd with
    | Empty => rfl
    | More e n => cases hh
  · intro T s hh
    obtain ⟨hd⟩ := s
    cases hd with
    | none => exact ⟨rfl, rfl, rfl⟩
    | more e n => cases hh
  · intro T h L hh
    simp [Third.headVal, hh]
  · intro T s hh ht
    refine ⟨?_, ?_, ?_, ?_, ?_, ?_⟩
    · simp [Fourth.List.pop_front, hh]
    · simp [Fourth.List.pop_back, ht]
    · simp [Fourth.List.peek_front, hh]
    · simp [Fourth.List.peek_back, ht]
    · simp [Fourth.List.peek_front_mut, hh]
    · simp [Fourth.List.peek_back_mut, ht]
  · intro T s hh
    simp [UnsafeDeque.List.pop, hh]

/-- Witness for C9 at the empty instance of every variant. -/
theorem c9_empty_absence_witness :
    First.List.new.pop = (none, First.List.new) ∧
    BadStack.List.new.pop = (none, BadStack.List.new) ∧
    ((Second.List.new : Second.List Nat).pop = (none, Second.List.new) ∧
      (Second.List.new : Second.List Nat).peek = none ∧
      (Second.List.new : Second.List Nat).peek_mut = none) ∧
    Third.headVal (Third.Heap.new : Third.Heap Nat) Third.List.new = none ∧
    ((Fourth.List.new : Fourth.List Nat).pop_front = .ok (none, Fourth.List.new) ∧
      (Fourth.List.new : Fourth.List Nat).pop_back = .ok (none, Fourth.List.new) ∧
      (Fourth.List.new : Fourth.List Nat).peek_front = .ok (none, Fourth.List.new) ∧
      (Fourth.List.new : Fourth.List Nat).peek_back = .ok (none, Fourth.List.new) ∧
      (Fourth.List.new : Fourth.List Nat).peek_front_mut = .ok (none, Fourth.List.new) ∧
      (Fourth.List.new : Fourth.List Nat).peek_back_mut = .ok (none, Fourth.List.new)) ∧
    (UnsafeDeque.List.new : UnsafeDeque.List Nat).pop = (none, UnsafeDeque.List.new) :=
  ⟨c9_empty_absence.1 First.List.new rfl,
   c9_empty_absence.2.1 BadStack.List.new rfl,
   c9_empty_absence.2.2.1 Nat Second.List.new rfl,
   c9_empty_absence.2.2.2.1 Nat Third.Heap.new Third.List.new rfl,
   c9_empty_absence.2.2.2.2.1 Nat Fourth.List.new rfl rfl,
   c9_empty_absence.2.2.2.2.2 Nat UnsafeDeque.List.new rfl⟩

/-! ## Lemmas about the checked deque (fourth.rs) -/

namespace Fourth

theorem dq_hfind_set_self {T : Type} (h : Sq (Nat × Node T)) (a : Nat)
    (nd : Node T) :
    hFind (hSet h a nd) a = (hFind h a).map fun _ => nd := by
  induction h with
  | nil => rfl
  | cons q rest ih =>
    obtain ⟨b, old⟩ := q
    by_cases hba : b = a
    · subst hba
      simp [hSet, hFind]
    · have hab : a ≠ b := fun hab => hba hab.symm
      simp [hSet, hba, hFind, hab, ih]

theorem dq_hfind_set_ne {T : Type} (h : Sq (Nat × Node T)) {a b : Nat}
    (nd : Node T) (hba : b ≠ a) :
    hFind (hSet h a nd) b = hFind h b := by
  induction h with
  | nil => rfl
  | cons q rest ih =>
    obtain ⟨k, old⟩ := q
    by_cases hka : k = a
    · subst hka
      simp [hSet, hFind, hba, ih]
    · simp [hSet, hka, hFind, ih]

theorem dq_hfind_erase_self {T : Type} (h : Sq (Nat × Node T)) (a : Nat) :
    hFind (hErase h a) a = none := by
  induction h with
  | nil => rfl
  | cons q rest ih =>
    obtain ⟨k, old⟩ := q
    by_cases hka : k = a
    · subst hka
      simpa [hErase] using ih
    · have hak : a ≠ k := fun hak => hka hak.symm
      simpa [hErase, hka, hFind, hak] using ih

theorem dq_hfind_erase_ne {T : Type} (h : Sq (Nat × Node T)) {a b : Nat}
    (hba : b ≠ a) : hFind (hErase h a) b = hFind h b := by
  induction h with
  | nil => rfl
  | cons q rest ih =>
    obtain ⟨k, old⟩ := q
    by_cases hka : k = a
    · subst hka
      simp [hErase, hFind, hba, ih]
    · by_cases hbk : b = k
      · subst hbk
        simp [hErase, hka, hFind]
      · simp [hErase, hka, hFind, hbk, ih]

theorem dq_hfind_mem_keys {T : Type} {h : Sq (Nat × Node T)} {a : Nat}
    {nd : Node T} (hf : hFind h a = some nd) : a ∈ keys h := by
  induction h with
  | nil => cases hf
  | cons q rest ih =>
    obtain ⟨k, old⟩ := q
    by_cases hak : a = k
    · subst hak
      exact List.mem_cons_self _ _
    · simp only [hFind, if_neg hak] at hf
      exact List.mem_cons_of_mem _ (ih hf)

theorem dq_hfind_of_not_mem {T : Type} {h : Sq (Nat × Node T)} {a : Nat}
    (ha : a ∉ keys h) : hFind h a = none := by
  cases hf : hFind h a with
  | none => rfl
  | some nd => exact absurd (dq_hfind_mem_keys hf) ha

theorem dq_keys_set {T : Type} (h : Sq (Nat × Node T)) (a : Nat)
    (nd : Node T) : keys (hSet h a nd) = keys h := by
  induction h with
  | nil => rfl
  | cons q rest ih =>
    obtain ⟨k, old⟩ := q
    by_cases hka : k = a
    · subst hka
      simp [hSet, keys] at ih ⊢
      exact ih
    · simp [hSet, hka, keys] at ih ⊢
      exact ih

theorem dq_mem_keys_erase {T : Type} (h : Sq (Nat × Node T)) (a b : Nat) :
    b ∈ keys (hErase h a) ↔ (b ∈ keys h ∧ b ≠ a) := by
  induction h with
  | nil => simp [hErase, keys]
  | cons q rest ih =>
    obtain ⟨k, old⟩ := q
    by_cases hka : k = a
    · subst hka
      simp only [hErase, if_pos rfl, keys, List.map_cons, List.mem_cons]
      rw [keys] at ih
      constructor
      · intro hmem
        exact ⟨Or.inr (ih.mp hmem).1, (ih.mp hmem).2⟩
      · rintro ⟨hmem | hmem, hba⟩
        · exact absurd hmem hba
        · exact ih.mpr ⟨hmem, hba⟩
    · simp only [hErase, if_neg hka, keys, List.map_cons, List.mem_cons]
      rw [keys] at ih
      constructor
      · rintro (rfl | hmem)
        · exact ⟨Or.inl rfl, fun hba => hka (hba ▸ rfl)⟩
        · exact ⟨Or.inr (ih.mp hmem).1, (ih.mp hmem).2⟩
      · rintro ⟨hmem | hmem, hba⟩
        · exact Or.inl hmem
        · exact Or.inr (ih.mpr ⟨hmem, hba⟩)

theorem dq_nodup_keys_erase {T : Type} {h : Sq (Nat × Node T)} (a : Nat)
    (hnd : (keys h).Nodup) : (keys (hErase h a)).Nodup := by
  induction h with
  | nil => exact List.nodup_nil
  | cons q rest ih =>
    obtain ⟨k, old⟩ := q
    rw [keys, List.map_cons] at hnd
    obtain ⟨hknot, hrest⟩ := List.nodup_cons.mp hnd
    by_cases hka : k = a
    · subst hka
      simpa [hErase] using ih hrest
    · rw [show hErase ((k, old) :: rest) a = (k, old) :: hErase rest a by
        simp [hErase, hka]]
      rw [keys, List.map_cons]
      refine List.nodup_cons.mpr ⟨?_, ih hrest⟩
      intro hmem
      exact hknot ((dq_mem_keys_erase rest a k).mp hmem).1

theorem dq_dchain_congr {T : Type} {h h' : Sq (Nat × Node T)}
    {p o : Option Nat} {as : Sq Nat} (hc : DChain h p o as)
    (hagree : ∀ b ∈ as, hFind h' b = hFind h b) : DChain h' p o as := by
  induction hc with
  | nil => exact DChain.nil _
  | cons hfind hprev hrest ih =>
    refine DChain.cons ?_ hprev (ih ?_)
    · rw [hagree _ (List.mem_cons_self _ _)]
      exact hfind
    · intro b hb
      exact hagree b (List.mem_cons_of_mem _ hb)

theorem dq_dchain_none_inv {T : Type} {h : Sq (Nat × Node T)}
    {p : Option Nat} {as : Sq Nat} (hc : DChain h p none as) : as = [] := by
  cases hc
  rfl

theorem dq_dchain_some_inv {T : Type} {h : Sq (Nat × Node T)}
    {p : Option Nat} {a : Nat} {as : Sq Nat} (hc : DChain h p (some a) as) :
    ∃ nd as', hFind h a = some nd ∧ nd.prev = p ∧ as = a :: as' ∧
      DChain h (some a) nd.next as' := by
  cases hc with
  | cons hfind hprev hrest => exact ⟨_, _, hfind, hprev, rfl, hrest⟩

theorem dq_dchain_addr_cons_inv {T : Type} {h : Sq (Nat × Node T)}
    {p o : Option Nat} {a : Nat} {as : Sq Nat} (hc : DChain h p o (a :: as)) :
    o = some a ∧ ∃ nd, hFind h a = some nd ∧ nd.prev = p ∧
      DChain h (some a) nd.next as := by
  cases hc with
  | cons hfind hprev hrest => exact ⟨rfl, _, hfind, hprev, hrest⟩

theorem dq_dchain_mem_find {T : Type} {h : Sq (Nat × Node T)}
    {p o : Option Nat} {as : Sq Nat} (hc : DChain h p o as) :
    ∀ b ∈ as, ∃ nd, hFind h b = some nd := by
  induction hc with
  | nil => intro b hb; cases hb
  | cons hfind hprev hrest ih =>
    intro b hb
    rcases List.mem_cons.mp hb with rfl | hb
    · exact ⟨_, hfind⟩
    · exact ih b hb

theorem dq_dchain_last_next {T : Type} {h : Sq (Nat × Node T)}
    {p o : Option Nat} {as : Sq Nat} (hc : DChain h p o as) :
    ∀ {t nt}, as.getLast? = some t → hFind h t = some nt → nt.next = none := by
  induction hc with
  | nil => intro t nt hlast; cases hlast
  | @cons p a nd as' hfind hprev hrest ih =>
    intro t nt hlast hfindt
    cases as' with
    | nil =>
      have hta : t = a := by
        simp [List.getLast?] at hlast
        exact hlast.symm
      subst hta
      rw [hfindt] at hfind
      injection hfind with hnd
      subst hnd
      cases hnn : nt.next with
      | none => rfl
      | some c =>
        rw [hnn] at hrest
        exfalso
        obtain ⟨nd2, as2, h1, h2, habs, h4⟩ := dq_dchain_some_inv hrest
        cases habs
    | cons d rest =>
      rw [List.getLast?_cons_cons] at hlast
      exact ih hlast hfindt

theorem dq_dchain_next_prev {T : Type} {h : Sq (Nat × Node T)}
    {p o : Option Nat} {as : Sq Nat} (hc : DChain h p o as) :
    ∀ {a na b}, a ∈ as → hFind h a = some na → na.next = some b →
      ∃ nb, hFind h b = some nb ∧ nb.prev = some a := by
  induction hc with
  | nil => intro a na b ha; cases ha
  | @cons p c nc as' hfind hprev hrest ih =>
    intro a na b ha hfinda hnext
    rcases List.mem_cons.mp ha with rfl | ha
    · rw [hfinda] at hfind
      injection hfind with hnd
      subst hnd
      rw [hnext] at hrest
      obtain ⟨nb, as'', hfindb, hprevb, -, -⟩ := dq_dchain_some_inv hrest
      exact ⟨nb, hfindb, hprevb⟩
    · exact ih ha hfinda hnext

theorem dq_dchain_prev_next {T : Type} {h : Sq (Nat × Node T)}
    {p o : Option Nat} {as : Sq Nat} (hc : DChain h p o as) :
    (∀ q, p = some q → ∃ nq, hFind h q = some nq ∧ nq.next = o) →
    ∀ {a na b}, a ∈ as → hFind h a = some na → na.prev = some b →
      ∃ nb, hFind h b = some nb ∧ nb.next = some a := by
  induction hc with
  | nil => intro hp a na b ha; cases ha
  | @cons p c nc as' hfind hprev hrest ih =>
    intro hp a na b ha hfinda hprava
    rcases List.mem_cons.mp ha with rfl | ha
    · rw [hfinda] at hfind
      injection hfind with hnd
      subst hnd
      rw [hprava] at hprev
      exact hp b hprev.symm
    · refine ih ?_ ha hfinda hprava
      intro q hq
      injection hq with hq
      subst hq
      exact ⟨nc, hfind, rfl⟩
end Fourth

namespace Fourth

theorem dq_dchain_snoc {T : Type} {h h' : Sq (Nat × Node T)} {t a : Nat}
    {nt na : Node T}
    (hfinda : hFind h' a = some na) (hnaprev : na.prev = some t)
    (hnanext : na.next = none)
    (hfindt : hFind h t = some nt)
    (hfindt' : hFind h' t = some { nt with next := some a })
    (hother : ∀ b, b ≠ a → b ≠ t → hFind h' b = hFind h b) :
    ∀ {p o : Option Nat} {as : Sq Nat}, DChain h p o as →
      as.getLast? = some t → a ∉ as → as.Nodup →
      DChain h' p o (as ++ [a]) := by
  intro p o as hc
  induction hc with
  | nil => intro hlast; cases hlast
  | @cons p c nc as' hfind hprev hrest ih =>
    intro hlast hmem hnodup
    have hca : c ≠ a := fun hca => hmem (hca ▸ List.mem_cons_self _ _)
    cases as' with
    | nil =>
      have htc : t = c := by
        simp [List.getLast?] at hlast
        exact hlast.symm
      subst htc
      rw [hfind] at hfindt
      injection hfindt with hnt
      subst hnt
      have hlastchain : DChain h' (some a) na.next [] := by
        rw [hnanext]
        exact DChain.nil _
      have hstep : DChain h' (some t) (some a) [a] :=
        DChain.cons hfinda hnaprev hlastchain
      exact DChain.cons hfindt' hprev hstep
    | cons d rest =>
      rw [List.getLast?_cons_cons] at hlast
      have htmem : t ∈ d :: rest := List.mem_of_getLast?_eq_some hlast
      have hcnotin : c ∉ d :: rest := (List.nodup_cons.mp hnodup).1
      have hct : c ≠ t := fun hct => hcnotin (hct ▸ htmem)
      have hfind' : hFind h' c = some nc := by
        rw [hother c hca hct]
        exact hfind
      refine DChain.cons hfind' hprev ?_
      exact ih hlast (fun hmem' => hmem (List.mem_cons_of_mem _ hmem'))
        (List.nodup_cons.mp hnodup).2

theorem dq_dchain_unsnoc {T : Type} {h h' : Sq (Nat × Node T)} {t t2 : Nat}
    {nt2 : Node T}
    (hfindt2 : hFind h t2 = some nt2)
    (hfindt2' : hFind h' t2 = some { nt2 with next := none })
    (hother : ∀ b, b ≠ t → b ≠ t2 → hFind h' b = hFind h b) :
    ∀ (as₁ : Sq Nat) {p o : Option Nat}, DChain h p o (as₁ ++ [t]) →
      as₁.getLast? = some t2 → (as₁ ++ [t]).Nodup →
      DChain h' p o as₁ := by
  intro as₁
  induction as₁ with
  | nil => intro p o hc hlast; cases hlast
  | cons a as' ih =>
    intro p o hc hlast hnodup
    obtain ⟨ho, nd, hfind, hprev, hrest⟩ := dq_dchain_addr_cons_inv hc
    subst ho
    have hanotin : a ∉ as' ++ [t] := (List.nodup_cons.mp hnodup).1
    have hat : a ≠ t := fun hat =>
      hanotin (hat ▸ List.mem_append_right _ (List.mem_cons_self _ _))
    cases as' with
    | nil =>
      have ht2a : t2 = a := by
        simp [List.getLast?] at hlast
        exact hlast.symm
      subst ht2a
      rw [hfind] at hfindt2
      injection hfindt2 with hnt
      subst hnt
      refine DChain.cons hfindt2' hprev ?_
      show DChain h' (some t2) ({ nd with next := none } : Node T).next []
      exact DChain.nil _
    | cons d rest2 =>
      rw [List.getLast?_cons_cons] at hlast
      have ht2mem : t2 ∈ (d :: rest2) ++ [t] :=
        List.mem_append_left _ (List.mem_of_getLast?_eq_some hlast)
      have hat2 : a ≠ t2 := fun hat2 => hanotin (hat2 ▸ ht2mem)
      have hfind' : hFind h' a = some nd := by
        rw [hother a hat hat2]
        exact hfind
      refine DChain.cons hfind' hprev ?_
      exact ih hrest hlast (List.nodup_cons.mp hnodup).2

theorem dq_dchain_prev_of_last {T : Type} {h : Sq (Nat × Node T)} {t : Nat}
    {nt : Node T} (hfindt : hFind h t = some nt) :
    ∀ (as₁ : Sq Nat) {p o : Option Nat}, DChain h p o (as₁ ++ [t]) →
      nt.prev = ((as₁.getLast?).map some).getD p := by
  intro as₁
  induction as₁ with
  | nil =>
    intro p o hc
    obtain ⟨ho, nd, hfind, hprev, hrest⟩ := dq_dchain_addr_cons_inv hc
    rw [hfindt] at hfind
    injection hfind with hnd
    subst hnd
    simpa using hprev
  | cons a as' ih =>
    intro p o hc
    obtain ⟨ho, nd, hfind, hprev, hrest⟩ := dq_dchain_addr_cons_inv hc
    have := ih hrest
    cases as' with
    | nil => simpa using this
    | cons d rest2 =>
      obtain ⟨t2, ht2⟩ := Option.isSome_iff_exists.mp
        (List.getLast?_isSome.mpr (List.cons_ne_nil d rest2))
      rw [List.getLast?_cons_cons, ht2]
      rw [ht2] at this
      simpa using this

end Fourth

namespace Fourth

theorem dq_dchain_nil_addr_inv {T : Type} {h : Sq (Nat × Node T)}
    {p o : Option Nat} (hc : DChain h p o []) : o = none := by
  cases hc
  rfl

theorem dq_inv_new {T : Type} : Inv (List.new : List T) := by
  refine ⟨[], DChain.nil _, rfl, ?_, List.nodup_nil, List.nodup_nil, ?_, ?_⟩
  · intro a
    simp [List.new, keys]
  · intro a ha
    cases ha
  · intro a nd hfind
    cases hfind


theorem dq_inv_push_front {T : Type} {s : List T} {x : T} {s' : List T}
    (hinv : Inv s) (hok : s.push_front x = .ok s') : Inv s' := by
  obtain ⟨as, hchain, htail, hkeys, hknodup, hasnodup, hbound, hflags⟩ := hinv
  cases hh : s.head with
  | none =>
    rw [hh] at hchain
    have hasnil : as = [] := dq_dchain_none_inv hchain
    subst hasnil
    simp only [List.push_front, hh] at hok
    injection hok with hok
    subst hok
    refine ⟨[s.fresh], ?_, ?_, ?_, ?_, List.nodup_singleton _, ?_, ?_⟩
    · have hfind1 : hFind ((s.fresh, Node.mkNew x) :: s.heap) s.fresh =
          some (Node.mkNew x) := by simp [hFind]
      refine DChain.cons hfind1 rfl ?_
      show DChain ((s.fresh, Node.mkNew x) :: s.heap) (some s.fresh)
        (Node.mkNew x).next []
      exact DChain.nil _
    · rfl
    · intro b
      have hb := hkeys b
      rw [keys] at hb
      rw [show keys ((s.fresh, Node.mkNew (T := T) x) :: s.heap) =
          s.fresh :: keys s.heap from rfl, keys]
      constructor
      · intro hmem
        rcases List.mem_cons.mp hmem with rfl | hmem2
        · exact List.mem_cons_self _ _
        · exact absurd (hb.mp hmem2) (List.not_mem_nil b)
      · intro hmem
        rcases List.mem_cons.mp hmem with rfl | hmem2
        · exact List.mem_cons_self _ _
        · cases hmem2
    · rw [show keys ((s.fresh, Node.mkNew (T := T) x) :: s.heap) =
          s.fresh :: keys s.heap from rfl]
      refine List.nodup_cons.mpr ⟨?_, hknodup⟩
      intro hmem
      exact absurd ((hkeys s.fresh).mp hmem) (List.not_mem_nil _)
    · intro b hb
      rcases List.mem_singleton.mp hb with rfl
      exact Nat.lt_succ_self _
    · intro b nb hfb
      by_cases hbf : b = s.fresh
      · subst hbf
        simp only [hFind, if_pos rfl] at hfb
        injection hfb with hfb
        rw [← hfb]
        rfl
      · simp only [hFind, if_neg hbf] at hfb
        exact hflags b nb hfb
  | some old =>
    rw [hh] at hchain
    obtain ⟨nd0, as₂, hfind0, hprev0, haseq, hrest⟩ := dq_dchain_some_inv hchain
    subst haseq
    have hflag := hflags old nd0 hfind0
    simp only [List.push_front, hh, hfind0] at hok
    rw [if_pos hflag] at hok
    injection hok with hok
    subst hok
    have holdas : old ∈ old :: as₂ := List.mem_cons_self _ _
    have holdfresh : old ≠ s.fresh := Nat.ne_of_lt (hbound old holdas)
    have hfreshnotin : s.fresh ∉ old :: as₂ :=
      fun hmem => Nat.lt_irrefl _ (hbound _ hmem)
    have holdnotin : old ∉ as₂ := (List.nodup_cons.mp hasnodup).1
    have hfind_new : hFind ((s.fresh, { Node.mkNew x with next := some old }) ::
        hSet s.heap old { nd0 with prev := some s.fresh }) s.fresh =
        some { Node.mkNew x with next := some old } := by
      simp [hFind]
    have hfind_old : hFind ((s.fresh, { Node.mkNew x with next := some old }) ::
        hSet s.heap old { nd0 with prev := some s.fresh }) old =
        some { nd0 with prev := some s.fresh } := by
      rw [show hFind ((s.fresh, { Node.mkNew x with next := some old }) ::
          hSet s.heap old { nd0 with prev := some s.fresh }) old =
          hFind (hSet s.heap old { nd0 with prev := some s.fresh }) old by
        simp [hFind, holdfresh]]
      rw [dq_hfind_set_self, hfind0]
      rfl
    have hfind_other : ∀ b, b ≠ s.fresh → b ≠ old →
        hFind ((s.fresh, { Node.mkNew x with next := some old }) ::
          hSet s.heap old { nd0 with prev := some s.fresh }) b =
        hFind s.heap b := by
      intro b hbf hbo
      rw [show hFind ((s.fresh, { Node.mkNew x with next := some old }) ::
          hSet s.heap old { nd0 with prev := some s.fresh }) b =
          hFind (hSet s.heap old { nd0 with prev := some s.fresh }) b by
        simp [hFind, hbf]]
      exact dq_hfind_set_ne _ _ hbo
    refine ⟨s.fresh :: old :: as₂, ?_, ?_, ?_, ?_, ?_, ?_, ?_⟩
    · refine DChain.cons hfind_new rfl ?_
      show DChain _ (some s.fresh)
        ({ Node.mkNew x with next := some old } : Node T).next (old :: as₂)
      refine DChain.cons hfind_old rfl ?_
      show DChain _ (some old) ({ nd0 with prev := some s.fresh } : Node T).next as₂
      refine dq_dchain_congr hrest ?_
      intro q hq
      have hqf : q ≠ s.fresh :=
        fun hqf => hfreshnotin (hqf ▸ List.mem_cons_of_mem _ hq)
      have hqo : q ≠ old := fun hqo => holdnotin (hqo ▸ hq)
      exact hfind_other q hqf hqo
    · show s.tail = (s.fresh :: old :: as₂).getLast?
      rw [htail, List.getLast?_cons_cons]
    · intro b
      have hb := hkeys b
      rw [keys] at hb
      rw [show keys ((s.fresh, { Node.mkNew x with next := some old }) ::
          hSet s.heap old { nd0 with prev := some s.fresh }) =
          s.fresh :: keys (hSet s.heap old { nd0 with prev := some s.fresh })
        from rfl, dq_keys_set, keys]
      constructor
      · intro hmem
        rcases List.mem_cons.mp hmem with rfl | hmem2
        · exact List.mem_cons_self _ _
        · exact List.mem_cons_of_mem _ (hb.mp hmem2)
      · intro hmem
        rcases List.mem_cons.mp hmem with rfl | hmem2
        · exact List.mem_cons_self _ _
        · exact List.mem_cons_of_mem _ (hb.mpr hmem2)
    · rw [show keys ((s.fresh, { Node.mkNew x with next := some old }) ::
          hSet s.heap old { nd0 with prev := some s.fresh }) =
          s.fresh :: keys (hSet s.heap old { nd0 with prev := some s.fresh })
        from rfl, dq_keys_set]
      refine List.nodup_cons.mpr ⟨?_, hknodup⟩
      intro hmem
      exact hfreshnotin ((hkeys s.fresh).mp hmem)
    · exact List.nodup_cons.mpr ⟨hfreshnotin, hasnodup⟩
    · intro b hb
      rcases List.mem_cons.mp hb with rfl | hmem
      · exact Nat.lt_succ_self _
      · exact Nat.lt_succ_of_lt (hbound b hmem)
    · intro b nb hfb
      by_cases hbf : b = s.fresh
      · subst hbf
        rw [hfind_new] at hfb
        injection hfb with hfb
        rw [← hfb]
        rfl
      · by_cases hbo : b = old
        · subst hbo
          rw [hfind_old] at hfb
          injection hfb with hfb
          rw [← hfb]
          exact hflag
        · rw [hfind_other b hbf hbo] at hfb
          exact hflags b nb hfb

end Fourth

namespace Fourth

theorem dq_inv_push_back {T : Type} {s : List T} {x : T} {s' : List T}
    (hinv : Inv s) (hok : s.push_back x = .ok s') : Inv s' := by
  obtain ⟨as, hchain, htail, hkeys, hknodup, hasnodup, hbound, hflags⟩ := hinv
  cases ht : s.tail with
  | none =>
    rw [ht] at htail
    have hasnil : as = [] := List.getLast?_eq_none_iff.mp htail.symm
    subst hasnil
    have hhead : s.head = none := dq_dchain_nil_addr_inv hchain
    simp only [List.push_back, ht] at hok
    injection hok with hok
    subst hok
    refine ⟨[s.fresh], ?_, ?_, ?_, ?_, List.nodup_singleton _, ?_, ?_⟩
    · have hfind1 : hFind ((s.fresh, Node.mkNew x) :: s.heap) s.fresh =
          some (Node.mkNew x) := by simp [hFind]
      refine DChain.cons hfind1 rfl ?_
      show DChain ((s.fresh, Node.mkNew x) :: s.heap) (some s.fresh)
        (Node.mkNew x).next []
      exact DChain.nil _
    · rfl
    · intro b
      have hb := hkeys b
      rw [keys] at hb
      rw [show keys ((s.fresh, Node.mkNew (T := T) x) :: s.heap) =
          s.fresh :: keys s.heap from rfl, keys]
      constructor
      · intro hmem
        rcases List.mem_cons.mp hmem with rfl | hmem2
        · exact List.mem_cons_self _ _
        · exact absurd (hb.mp hmem2) (List.not_mem_nil b)
      · intro hmem
        rcases List.mem_cons.mp hmem with rfl | hmem2
        · exact List.mem_cons_self _ _
        · cases hmem2
    · rw [show keys ((s.fresh, Node.mkNew (T := T) x) :: s.heap) =
          s.fresh :: keys s.heap from rfl]
      refine List.nodup_cons.mpr ⟨?_, hknodup⟩
      intro hmem
      exact absurd ((hkeys s.fresh).mp hmem) (List.not_mem_nil _)
    · intro b hb
      rcases List.mem_singleton.mp hb with rfl
      exact Nat.lt_succ_self _
    · intro b nb hfb
      by_cases hbf : b = s.fresh
      · subst hbf
        simp only [hFind, if_pos rfl] at hfb
        injection hfb with hfb
        rw [← hfb]
        rfl
      · simp only [hFind, if_neg hbf] at hfb
        exact hflags b nb hfb
  | some oldt =>
    have hlastt : as.getLast? = some oldt := by rw [← htail, ht]
    have holdtas : oldt ∈ as := List.mem_of_getLast?_eq_some hlastt
    obtain ⟨nd0, hfind0⟩ := dq_dchain_mem_find hchain oldt holdtas
    have hflag := hflags oldt nd0 hfind0
    simp only [List.push_back, ht, hfind0] at hok
    rw [if_pos hflag] at hok
    injection hok with hok
    subst hok
    have holdfresh : oldt ≠ s.fresh := Nat.ne_of_lt (hbound oldt holdtas)
    have hfreshnotin : s.fresh ∉ as :=
      fun hmem => Nat.lt_irrefl _ (hbound _ hmem)
    have hfind_new : hFind ((s.fresh, { Node.mkNew x with prev := some oldt }) ::
        hSet s.heap oldt { nd0 with next := some s.fresh }) s.fresh =
        some { Node.mkNew x with prev := some oldt } := by
      simp [hFind]
    have hfind_oldt : hFind ((s.fresh, { Node.mkNew x with prev := some oldt }) ::
        hSet s.heap oldt { nd0 with next := some s.fresh }) oldt =
        some { nd0 with next := some s.fresh } := by
      rw [show hFind ((s.fresh, { Node.mkNew x with prev := some oldt }) ::
          hSet s.heap oldt { nd0 with next := some s.fresh }) oldt =
          hFind (hSet s.heap oldt { nd0 with next := some s.fresh }) oldt by
        simp [hFind, holdfresh]]
      rw [dq_hfind_set_self, hfind0]
      rfl
    have hfind_other : ∀ b, b ≠ s.fresh → b ≠ oldt →
        hFind ((s.fresh, { Node.mkNew x with prev := some oldt }) ::
          hSet s.heap oldt { nd0 with next := some s.fresh }) b =
        hFind s.heap b := by
      intro b hbf hbo
      rw [show hFind ((s.fresh, { Node.mkNew x with prev := some oldt }) ::
          hSet s.heap oldt { nd0 with next := some s.fresh }) b =
          hFind (hSet s.heap oldt { nd0 with next := some s.fresh }) b by
        simp [hFind, hbf]]
      exact dq_hfind_set_ne _ _ hbo
    refine ⟨as ++ [s.fresh], ?_, ?_, ?_, ?_, ?_, ?_, ?_⟩
    · exact dq_dchain_snoc hfind_new rfl rfl hfind0 hfind_oldt hfind_other
        hchain hlastt hfreshnotin hasnodup
    · show some s.fresh = (as ++ [s.fresh]).getLast?
      rw [List.getLast?_concat]
    · intro b
      have hb := hkeys b
      rw [keys] at hb
      rw [show keys ((s.fresh, { Node.mkNew x with prev := some oldt }) ::
          hSet s.heap oldt { nd0 with next := some s.fresh }) =
          s.fresh :: keys (hSet s.heap oldt { nd0 with next := some s.fresh })
        from rfl, dq_keys_set, keys]
      constructor
      · intro hmem
        rcases List.mem_cons.mp hmem with rfl | hmem2
        · exact List.mem_append_right _ (List.mem_singleton.mpr rfl)
        · exact List.mem_append_left _ (hb.mp hmem2)
      · intro hmem
        rcases List.mem_append.mp hmem with hmem2 | hmem2
        · exact List.mem_cons_of_mem _ (hb.mpr hmem2)
        · rcases List.mem_singleton.mp hmem2 with rfl
          exact List.mem_cons_self _ _
    · rw [show keys ((s.fresh, { Node.mkNew x with prev := some oldt }) ::
          hSet s.heap oldt { nd0 with next := some s.fresh }) =
          s.fresh :: keys (hSet s.heap oldt { nd0 with next := some s.fresh })
        from rfl, dq_keys_set]
      refine List.nodup_cons.mpr ⟨?_, hknodup⟩
      intro hmem
      exact hfreshnotin ((hkeys s.fresh).mp hmem)
    · refine List.Nodup.append hasnodup (List.nodup_singleton _) ?_
      intro b hb hbmem
      rcases List.mem_singleton.mp hbmem with rfl
      exact hfreshnotin hb
    · intro b hb
      rcases List.mem_append.mp hb with hmem | hmem
      · exact Nat.lt_succ_of_lt (hbound b hmem)
      · rcases List.mem_singleton.mp hmem with rfl
        exact Nat.lt_succ_self _
    · intro b nb hfb
      by_cases hbf : b = s.fresh
      · subst hbf
        rw [hfind_new] at hfb
        injection hfb with hfb
        rw [← hfb]
        rfl
      · by_cases hbo : b = oldt
        · subst hbo
          rw [hfind_oldt] at hfb
          injection hfb with hfb
          rw [← hfb]
          exact hflag
        · rw [hfind_other b hbf hbo] at hfb
          exact hflags b nb hfb

end Fourth


namespace Fourth

theorem dq_inv_pop_front {T : Type} {s : List T} {rs : Option T × List T}
    (hinv : Inv s) (hok : s.pop_front = .ok rs) : Inv rs.2 := by
  obtain ⟨r, s'⟩ := rs
  obtain ⟨as, hchain, htail, hkeys, hknodup, hasnodup, hbound, hflags⟩ := hinv
  cases hh : s.head with
  | none =>
    simp only [List.pop_front, hh] at hok
    injection hok with hok
    injection hok with hr hs
    subst hs
    exact ⟨as, hchain, htail, hkeys, hknodup, hasnodup, hbound, hflags⟩
  | some a =>
    rw [hh] at hchain
    obtain ⟨nd0, as₂, hfind0, hprev0, haseq, hrest⟩ := dq_dchain_some_inv hchain
    subst haseq
    have hflag := hflags a nd0 hfind0
    have hanotin : a ∉ as₂ := (List.nodup_cons.mp hasnodup).1
    simp only [List.pop_front, hh, hfind0] at hok
    rw [if_pos hflag] at hok
    split at hok
    case h_1 b heq =>
      rw [heq] at hrest
      obtain ⟨nd2, as₃, hfindb, hprevb, has2, hrest2⟩ := dq_dchain_some_inv hrest
      subst has2
      have hab : a ≠ b := fun hab => hanotin (hab ▸ List.mem_cons_self _ _)
      have hba : b ≠ a := Ne.symm hab
      have hbnotin : b ∉ as₃ :=
        (List.nodup_cons.mp (List.nodup_cons.mp hasnodup).2).1
      have hflagb := hflags b nd2 hfindb
      split at hok
      case h_1 heq2 =>
        rw [dq_hfind_set_ne _ _ hba, hfindb] at heq2
        cases heq2
      case h_2 nd2' heq2 =>
        rw [dq_hfind_set_ne _ _ hba, hfindb] at heq2
        injection heq2 with heq2
        subst heq2
        rw [if_pos hflagb] at hok
        split at hok
        case isFalse => cases hok
        case isTrue hrc =>
          injection hok with hok
          injection hok with hr hs
          subst hs
          have hfind_b' : hFind (hErase (hSet (hSet s.heap a
              { nd0 with next := none }) b { nd2 with prev := none }) a) b =
              some { nd2 with prev := none } := by
            rw [dq_hfind_erase_ne _ hba, dq_hfind_set_self,
              dq_hfind_set_ne _ _ hba, hfindb]
            rfl
          have hfind_other : ∀ q, q ≠ a → q ≠ b →
              hFind (hErase (hSet (hSet s.heap a { nd0 with next := none })
                b { nd2 with prev := none }) a) q = hFind s.heap q := by
            intro q hqa hqb
            rw [dq_hfind_erase_ne _ hqa, dq_hfind_set_ne _ _ hqb,
              dq_hfind_set_ne _ _ hqa]
          refine ⟨b :: as₃, ?_, ?_, ?_, ?_, ?_, ?_, ?_⟩
          · refine DChain.cons hfind_b' rfl ?_
            show DChain _ (some b) ({ nd2 with prev := none } : Node T).next as₃
            refine dq_dchain_congr hrest2 ?_
            intro q hq
            have hqa : q ≠ a :=
              fun hqa => hanotin (hqa ▸ List.mem_cons_of_mem _ hq)
            have hqb : q ≠ b := fun hqb => hbnotin (hqb ▸ hq)
            exact hfind_other q hqa hqb
          · show s.tail = (b :: as₃).getLast?
            rw [htail, List.getLast?_cons_cons]
          · intro q
            constructor
            · intro hmem
              obtain ⟨hmem1, hqa⟩ := (dq_mem_keys_erase _ a q).mp hmem
              rw [dq_keys_set, dq_keys_set] at hmem1
              rcases List.mem_cons.mp ((hkeys q).mp hmem1) with rfl | hmem2
              · exact absurd rfl hqa
              · exact hmem2
            · intro hmem
              have hqa : q ≠ a := fun hqa => hanotin (hqa ▸ hmem)
              refine (dq_mem_keys_erase _ a q).mpr ⟨?_, hqa⟩
              rw [dq_keys_set, dq_keys_set]
              exact (hkeys q).mpr (List.mem_cons_of_mem _ hmem)
          · refine dq_nodup_keys_erase a ?_
            rw [dq_keys_set, dq_keys_set]
            exact hknodup
          · exact (List.nodup_cons.mp hasnodup).2
          · intro q hq
            exact hbound q (List.mem_cons_of_mem _ hq)
          · intro q nq hfq
            have hqa : q ≠ a := by
              intro hqa
              subst hqa
              rw [dq_hfind_erase_self] at hfq
              cases hfq
            by_cases hqb : q = b
            · subst hqb
              rw [hfind_b'] at hfq
              injection hfq with hfq
              rw [← hfq]
              exact hflagb
            · rw [hfind_other q hqa hqb] at hfq
              exact hflags q nq hfq
    case h_2 heq =>
      rw [heq] at hrest
      have has2 : as₂ = [] := dq_dchain_none_inv hrest
      subst has2
      split at hok
      case isFalse => cases hok
      case isTrue hrc =>
        injection hok with hok
        injection hok with hr hs
        subst hs
        refine ⟨[], DChain.nil _, rfl, ?_, ?_, List.nodup_nil, ?_, ?_⟩
        · intro q
          constructor
          · intro hmem
            obtain ⟨hmem1, hqa⟩ := (dq_mem_keys_erase _ a q).mp hmem
            rw [dq_keys_set] at hmem1
            rcases List.mem_singleton.mp ((hkeys q).mp hmem1) with rfl
            exact absurd rfl hqa
          · intro hmem
            cases hmem
        · refine dq_nodup_keys_erase a ?_
          rw [dq_keys_set]
          exact hknodup
        · intro q hq
          cases hq
        · intro q nq hfq
          have hqa : q ≠ a := by
            intro hqa
            subst hqa
            rw [dq_hfind_erase_self] at hfq
            cases hfq
          rw [dq_hfind_erase_ne _ hqa, dq_hfind_set_ne _ _ hqa] at hfq
          exact hflags q nq hfq

end Fourth

namespace Fourth

theorem dq_inv_pop_back {T : Type} {s : List T} {rs : Option T × List T}
    (hinv : Inv s) (hok : s.pop_back = .ok rs) : Inv rs.2 := by
  obtain ⟨r, s'⟩ := rs
  obtain ⟨as, hchain, htail, hkeys, hknodup, hasnodup, hbound, hflags⟩ := hinv
  cases ht : s.tail with
  | none =>
    simp only [List.pop_back, ht] at hok
    injection hok with hok
    injection hok with hr hs
    subst hs
    exact ⟨as, hchain, htail, hkeys, hknodup, hasnodup, hbound, hflags⟩
  | some t =>
    have hlastt : as.getLast? = some t := by rw [← htail, ht]
    rcases List.eq_nil_or_concat as with rfl | ⟨as₁, t0, hdecomp⟩
    · cases hlastt
    · rw [List.concat_eq_append] at hdecomp
      subst hdecomp
      rw [List.getLast?_concat] at hlastt
      injection hlastt with ht0
      subst ht0
      have htmem : t0 ∈ as₁ ++ [t0] :=
        List.mem_append_right _ (List.mem_singleton.mpr rfl)
      obtain ⟨nd0, hfind0⟩ := dq_dchain_mem_find hchain t0 htmem
      have hflag := hflags t0 nd0 hfind0
      have hdisj := (List.nodup_append.mp hasnodup).2.2
      have htnotin1 : t0 ∉ as₁ :=
        fun hmem => hdisj hmem (List.mem_singleton.mpr rfl)
      have hprevt := dq_dchain_prev_of_last hfind0 as₁ hchain
      simp only [List.pop_back, ht, hfind0] at hok
      rw [if_pos hflag] at hok
      split at hok
      case h_1 t2 heq =>
        rw [heq] at hprevt
        have hlast1 : as₁.getLast? = some t2 := by
          cases h1 : as₁.getLast? with
          | none =>
            rw [h1] at hprevt
            cases hprevt
          | some u =>
            rw [h1] at hprevt
            simp only [Option.map_some', Option.getD_some] at hprevt
            injection hprevt with hprevt
            rw [hprevt]
        have ht2mem1 : t2 ∈ as₁ := List.mem_of_getLast?_eq_some hlast1
        have ht2t : t2 ≠ t0 := fun h2 => htnotin1 (h2 ▸ ht2mem1)
        obtain ⟨nd2, hfindt2⟩ :=
          dq_dchain_mem_find hchain t2 (List.mem_append_left _ ht2mem1)
        have hflagt2 := hflags t2 nd2 hfindt2
        split at hok
        case h_1 heq2 =>
          rw [dq_hfind_set_ne _ _ ht2t, hfindt2] at heq2
          cases heq2
        case h_2 nd2' heq2 =>
          rw [dq_hfind_set_ne _ _ ht2t, hfindt2] at heq2
          injection heq2 with heq2
          subst heq2
          rw [if_pos hflagt2] at hok
          split at hok
          case isFalse => cases hok
          case isTrue hrc =>
            injection hok with hok
            injection hok with hr hs
            subst hs
            have htt2 : t0 ≠ t2 := Ne.symm ht2t
            have hfind_t2' : hFind (hErase (hSet (hSet s.heap t0
                { nd0 with prev := none }) t2 { nd2 with next := none }) t0) t2 =
                some { nd2 with next := none } := by
              rw [dq_hfind_erase_ne _ ht2t, dq_hfind_set_self,
                dq_hfind_set_ne _ _ ht2t, hfindt2]
              rfl
            have hfind_other : ∀ q, q ≠ t0 → q ≠ t2 →
                hFind (hErase (hSet (hSet s.heap t0 { nd0 with prev := none })
                  t2 { nd2 with next := none }) t0) q = hFind s.heap q := by
              intro q hqt hqt2
              rw [dq_hfind_erase_ne _ hqt, dq_hfind_set_ne _ _ hqt2,
                dq_hfind_set_ne _ _ hqt]
            refine ⟨as₁, ?_, ?_, ?_, ?_, ?_, ?_, ?_⟩
            · exact dq_dchain_unsnoc hfindt2 hfind_t2' hfind_other as₁ hchain
                hlast1 hasnodup
            · show some t2 = as₁.getLast?
              rw [hlast1]
            · intro q
              constructor
              · intro hmem
                obtain ⟨hmem1, hqt⟩ := (dq_mem_keys_erase _ t0 q).mp hmem
                rw [dq_keys_set, dq_keys_set] at hmem1
                rcases List.mem_append.mp ((hkeys q).mp hmem1) with hmem2 | hmem2
                · exact hmem2
                · rcases List.mem_singleton.mp hmem2 with rfl
                  exact absurd rfl hqt
              · intro hmem
                have hqt : q ≠ t0 := fun hqt => htnotin1 (hqt ▸ hmem)
                refine (dq_mem_keys_erase _ t0 q).mpr ⟨?_, hqt⟩
                rw [dq_keys_set, dq_keys_set]
                exact (hkeys q).mpr (List.mem_append_left _ hmem)
            · refine dq_nodup_keys_erase t0 ?_
              rw [dq_keys_set, dq_keys_set]
              exact hknodup
            · exact (List.nodup_append.mp hasnodup).1
            · intro q hq
              exact hbound q (List.mem_append_left _ hq)
            · intro q nq hfq
              have hqt : q ≠ t0 := by
                intro hqt
                subst hqt
                rw [dq_hfind_erase_self] at hfq
                cases hfq
              by_cases hqt2 : q = t2
              · subst hqt2
                rw [hfind_t2'] at hfq
                injection hfq with hfq
                rw [← hfq]
                exact hflagt2
              · rw [hfind_other q hqt hqt2] at hfq
                exact hflags q nq hfq
      case h_2 heq =>
        rw [heq] at hprevt
        have has1 : as₁ = [] := by
          cases h1 : as₁.getLast? with
          | some u =>
            rw [h1] at hprevt
            cases hprevt
          | none => exact List.getLast?_eq_none_iff.mp h1
        subst has1
        split at hok
        case isFalse => cases hok
        case isTrue hrc =>
          injection hok with hok
          injection hok with hr hs
          subst hs
          refine ⟨[], DChain.nil _, rfl, ?_, ?_, List.nodup_nil, ?_, ?_⟩
          · intro q
            constructor
            · intro hmem
              obtain ⟨hmem1, hqt⟩ := (dq_mem_keys_erase _ t0 q).mp hmem
              rw [dq_keys_set] at hmem1
              rcases List.mem_singleton.mp ((hkeys q).mp hmem1) with rfl
              exact absurd rfl hqt
            · intro hmem
              cases hmem
          · refine dq_nodup_keys_erase t0 ?_
            rw [dq_keys_set]
            exact hknodup
          · intro q hq
            cases hq
          · intro q nq hfq
            have hqt : q ≠ t0 := by
              intro hqt
              subst hqt
              rw [dq_hfind_erase_self] at hfq
              cases hfq
            rw [dq_hfind_erase_ne _ hqt, dq_hfind_set_ne _ _ hqt] at hfq
            exact hflags q nq hfq

theorem dq_reach_inv {T : Type} {s : List T} (hr : Reach s) : Inv s := by
  induction hr with
  | new => exact dq_inv_new
  | push_front hr hok ih => exact dq_inv_push_front ih hok
  | push_back hr hok ih => exact dq_inv_push_back ih hok
  | pop_front hr hok ih => exact dq_inv_pop_front ih hok
  | pop_back hr hok ih => exact dq_inv_pop_back ih hok

end Fourth

/-! ## Claims C3, C4, C5 and C10: the checked deque -/

/-- C3: CheckedDeque doubly-linked invariant — after any mixed sequence of
`push_front`, `push_back`, `pop_front`, `pop_back` from the empty deque, every
stored node satisfies: if its `next` is `some b` then `b`'s `prev` points back
at it, and if its `prev` is `some b` then `b`'s `next` points back at it; and
the head node's `prev` and the tail node's `next` are always absent. -/
theorem c3_deque_doubly_linked {T : Type} (s : Fourth.List T)
    (hr : Fourth.Reach s) :
    (∀ a nd, Fourth.hFind s.heap a = some nd →
      (∀ b, nd.next = some b → ∃ nb, Fourth.hFind s.heap b = some nb ∧
        nb.prev = some a) ∧
      (∀ b, nd.prev = some b → ∃ nb, Fourth.hFind s.heap b = some nb ∧
        nb.next = some a)) ∧
    (∀ a nd, s.head = some a → Fourth.hFind s.heap a = some nd →
      nd.prev = none) ∧
    (∀ a nd, s.tail = some a → Fourth.hFind s.heap a = some nd →
      nd.next = none) := by
  obtain ⟨as, hchain, htail, hkeys, hknodup, hasnodup, hbound, hflags⟩ :=
    Fourth.dq_reach_inv hr
  refine ⟨?_, ?_, ?_⟩
  · intro a nd hfind
    have hamem : a ∈ as := (hkeys a).mp (Fourth.dq_hfind_mem_keys hfind)
    constructor
    · intro b hnext
      exact Fourth.dq_dchain_next_prev hchain hamem hfind hnext
    · intro b hprev
      refine Fourth.dq_dchain_prev_next hchain ?_ hamem hfind hprev
      intro q hq
      cases hq
  · intro a nd hh hfind
    rw [hh] at hchain
    obtain ⟨nd0, as₂, hfind0, hprev0, haseq, hrest⟩ :=
      Fourth.dq_dchain_some_inv hchain
    rw [hfind] at hfind0
    injection hfind0 with h1
    rw [h1]
    exact hprev0
  · intro a nd hta hfind
    rw [hta] at htail
    exact Fourth.dq_dchain_last_next hchain htail.symm hfind

/-- Witness for C3 at the concrete one-element deque reached by
`push_front(1)` on an empty deque. -/
theorem c3_deque_doubly_linked_witness :
    (∀ a nd, Fourth.hFind Fourth.oneElem.heap a = some nd →
      (∀ b, nd.next = some b → ∃ nb, Fourth.hFind Fourth.oneElem.heap b =
        some nb ∧ nb.prev = some a) ∧
      (∀ b, nd.prev = some b → ∃ nb, Fourth.hFind Fourth.oneElem.heap b =
        some nb ∧ nb.next = some a)) ∧
    (∀ a nd, Fourth.oneElem.head = some a →
      Fourth.hFind Fourth.oneElem.heap a = some nd → nd.prev = none) ∧
    (∀ a nd, Fourth.oneElem.tail = some a →
      Fourth.hFind Fourth.oneElem.heap a = some nd → nd.next = none) :=
  c3_deque_doubly_linked Fourth.oneElem
    (Fourth.Reach.push_front Fourth.Reach.new rfl)

/-- C4: CheckedDeque end symmetry — `push_front(1); push_front(2);
push_front(3)` followed by three `pop_front`s returns `some 3, some 2, some 1`
in that order, and the same sequence with `push_back`/`pop_back` returns the
same results. -/
theorem c4_deque_end_symmetry :
    Fourth.runFront3 = .ok (some 3, some 2, some 1) ∧
    Fourth.runBack3 = .ok (some 3, some 2, some 1) :=
  ⟨rfl, rfl⟩

namespace Fourth

theorem dq_peek_front_mut_ok {T : Type} {s s₁ : List T} {a : Nat} {x : T}
    (h : s.peek_front_mut = .ok (some (a, x), s₁)) :
    ∃ nd : Node T, s.head = some a ∧ hFind s.heap a = some nd ∧
      nd.flag = .free ∧ nd.elem = x ∧
      s₁ = { s with heap := hSet s.heap a { nd with flag := .writing } } := by
  cases hh : s.head with
  | none =>
    simp only [List.peek_front_mut, hh] at h
    injection h with h
    injection h with h1 h2
    cases h1
  | some a' =>
    simp only [List.peek_front_mut, hh] at h
    split at h
    case h_1 heq => cases h
    case h_2 nd heq =>
      split at h
      case isFalse => cases h
      case isTrue hfl =>
        injection h with h
        injection h with h1 h2
        injection h1 with h1
        injection h1 with ha hx
        subst ha
        exact ⟨nd, rfl, heq, hfl, hx, h2.symm⟩

theorem dq_peek_front_ok {T : Type} {s s₁ : List T} {a : Nat} {x : T}
    (h : s.peek_front = .ok (some (a, x), s₁)) :
    ∃ nd : Node T, s.head = some a ∧ hFind s.heap a = some nd ∧
      nd.elem = x ∧
      ((nd.flag = .free ∧
        s₁ = { s with heap := hSet s.heap a { nd with flag := .reading 1 } }) ∨
       (∃ n, nd.flag = .reading n ∧
        s₁ = { s with
          heap := hSet s.heap a { nd with flag := .reading (n + 1) } })) := by
  cases hh : s.head with
  | none =>
    simp only [List.peek_front, hh] at h
    injection h with h
    injection h with h1 h2
    cases h1
  | some a' =>
    simp only [List.peek_front, hh] at h
    split at h
    case h_1 heq => cases h
    case h_2 nd heq =>
      split at h
      case h_1 hw => cases h
      case h_2 hfl =>
        injection h with h
        injection h with h1 h2
        injection h1 with h1
        injection h1 with ha hx
        subst ha
        exact ⟨nd, rfl, heq, hx, Or.inl ⟨hfl, h2.symm⟩⟩
      case h_3 n hr =>
        injection h with h
        injection h with h1 h2
        injection h1 with h1
        injection h1 with ha hx
        subst ha
        exact ⟨nd, rfl, heq, hx, Or.inr ⟨n, hr, h2.symm⟩⟩

theorem dq_peek_front_err_of_writing {T : Type} {s : List T} {a : Nat}
    {nd : Node T} (hh : s.head = some a) (hf : hFind s.heap a = some nd)
    (hw : nd.flag = .writing) : s.peek_front = .error () := by
  simp only [List.peek_front, hh, hf, hw]

theorem dq_peek_front_mut_err {T : Type} {s : List T} {a : Nat}
    {nd : Node T} (hh : s.head = some a) (hf : hFind s.heap a = some nd)
    (hw : nd.flag ≠ .free) : s.peek_front_mut = .error () := by
  simp only [List.peek_front_mut, hh, hf]
  rw [if_neg hw]

theorem dq_peek_front_free_ok {T : Type} {s : List T} {a : Nat}
    {nd : Node T} (hh : s.head = some a) (hf : hFind s.heap a = some nd)
    (hfl : nd.flag = .free) :
    s.peek_front = .ok (some (a, nd.elem),
      { s with heap := hSet s.heap a { nd with flag := .reading 1 } }) := by
  simp only [List.peek_front, hh, hf, hfl]

theorem dq_peek_front_mut_free_ok {T : Type} {s : List T} {a : Nat}
    {nd : Node T} (hh : s.head = some a) (hf : hFind s.heap a = some nd)
    (hfl : nd.flag = .free) :
    s.peek_front_mut = .ok (some (a, nd.elem),
      { s with heap := hSet s.heap a { nd with flag := .writing } }) := by
  simp only [List.peek_front_mut, hh, hf, hfl]
  rw [if_pos trivial]

theorem dq_releaseWrite_eq {T : Type} {s : List T} {a : Nat} {nd : Node T}
    (hf : hFind s.heap a = some nd) (hw : nd.flag = .writing) :
    releaseWrite s a =
      { s with heap := hSet s.heap a { nd with flag := .free } } := by
  simp only [releaseWrite, hf, hw]

theorem dq_releaseRead_one_eq {T : Type} {s : List T} {a : Nat} {nd : Node T}
    (hf : hFind s.heap a = some nd) (hr : nd.flag = .reading 1) :
    releaseRead s a =
      { s with heap := hSet s.heap a { nd with flag := .free } } := by
  simp only [releaseRead, hf, hr]
  rfl

end Fourth

/-- C5: CheckedDeque aliasing enforcement — while a mutable `peek_front_mut`
view is live, any further front view (shared or mutable) of that node fails
fast with a runtime violation; while a shared `peek_front` view is live, a
mutable view fails fast; and once the live view is released, a subsequent
peek of the node succeeds. -/
theorem c5_deque_aliasing (T : Type) :
    (∀ (s s₁ : Fourth.List T) (a : Nat) (x : T),
      s.peek_front_mut = .ok (some (a, x), s₁) →
      s₁.peek_front = .error () ∧ s₁.peek_front_mut = .error () ∧
      ∃ s₂, (Fourth.releaseWrite s₁ a).peek_front = .ok (some (a, x), s₂)) ∧
    (∀ (s s₁ : Fourth.List T) (a : Nat) (x : T) (nd : Fourth.Node T),
      Fourth.hFind s.heap a = some nd → nd.flag = .free →
      s.peek_front = .ok (some (a, x), s₁) →
      s₁.peek_front_mut = .error () ∧
      ∃ s₂, (Fourth.releaseRead s₁ a).peek_front_mut =
        .ok (some (a, x), s₂)) := by
  constructor
  · intro s s₁ a x hmut
    obtain ⟨nd, hh, hf, hfl, hx, hs1⟩ := Fourth.dq_peek_front_mut_ok hmut
    have hh1 : s₁.head = some a := by rw [hs1]; exact hh
    have hfind1 : Fourth.hFind s₁.heap a = some { nd with flag := .writing } := by
      rw [hs1]
      show Fourth.hFind (Fourth.hSet s.heap a { nd with flag := .writing }) a = some { nd with flag := .writing }
      rw [Fourth.dq_hfind_set_self, hf]
      rfl
    refine ⟨?_, ?_, ?_⟩
    · exact Fourth.dq_peek_front_err_of_writing hh1 hfind1 rfl
    · exact Fourth.dq_peek_front_mut_err hh1 hfind1 (by intro hcon; cases hcon)
    · rw [Fourth.dq_releaseWrite_eq hfind1 rfl]
      have hfind2 : Fourth.hFind (Fourth.hSet s₁.heap a { { nd with flag := Fourth.BorrowFlag.writing } with flag := .free }) a = some { nd with flag := .free } := by
        rw [Fourth.dq_hfind_set_self, hfind1]
        rfl
      have hhr : ({ s₁ with heap := Fourth.hSet s₁.heap a { { nd with flag := Fourth.BorrowFlag.writing } with flag := .free } } : Fourth.List T).head = some a := hh1
      have hpk := Fourth.dq_peek_front_free_ok hhr hfind2 rfl
      rw [← hx]
      exact ⟨_, hpk⟩
  · intro s s₁ a x nd hfind hflag hpeek
    obtain ⟨nd', hh, hf, hx, hcase⟩ := Fourth.dq_peek_front_ok hpeek
    rw [hfind] at hf
    injection hf with hf
    subst hf
    rcases hcase with ⟨hfl, hs1⟩ | ⟨n, hr, hs1⟩
    · have hh1 : s₁.head = some a := by rw [hs1]; exact hh
      have hfind1 : Fourth.hFind s₁.heap a = some { nd with flag := .reading 1 } := by
        rw [hs1]
        show Fourth.hFind (Fourth.hSet s.heap a { nd with flag := .reading 1 }) a = some { nd with flag := .reading 1 }
        rw [Fourth.dq_hfind_set_self, hfind]
        rfl
      constructor
      · exact Fourth.dq_peek_front_mut_err hh1 hfind1 (by intro hcon; cases hcon)
      · rw [Fourth.dq_releaseRead_one_eq hfind1 rfl]
        have hfind2 : Fourth.hFind (Fourth.hSet s₁.heap a { { nd with flag := Fourth.BorrowFlag.reading 1 } with flag := .free }) a = some { nd with flag := .free } := by
          rw [Fourth.dq_hfind_set_self, hfind1]
          rfl
        have hhr : ({ s₁ with heap := Fourth.hSet s₁.heap a { { nd with flag := Fourth.BorrowFlag.reading 1 } with flag := .free } } : Fourth.List T).head = some a := hh1
        have hpk := Fourth.dq_peek_front_mut_free_ok hhr hfind2 rfl
        rw [← hx]
        exact ⟨_, hpk⟩
    · rw [hr] at hflag
      cases hflag

/-- Witness for C5 at the one-element deque: a live mutable view blocks
further views; a released view permits them. -/
theorem c5_deque_aliasing_witness :
    (Fourth.oneElemW.peek_front = .error () ∧
     Fourth.oneElemW.peek_front_mut = .error () ∧
     ∃ s₂, (Fourth.releaseWrite Fourth.oneElemW 1).peek_front =
       .ok (some (1, 1), s₂)) ∧
    ((⟨[(1, ⟨1, none, none, .reading 1⟩)], some 1, some 1, 2⟩ :
        Fourth.List Nat).peek_front_mut = .error () ∧
     ∃ s₂, (Fourth.releaseRead (⟨[(1, ⟨1, none, none, .reading 1⟩)],
        some 1, some 1, 2⟩ : Fourth.List Nat) 1).peek_front_mut =
       .ok (some (1, 1), s₂)) :=
  ⟨(c5_deque_aliasing Nat).1 Fourth.oneElem Fourth.oneElemW 1 1 rfl,
   (c5_deque_aliasing Nat).2 Fourth.oneElem _ 1 1 ⟨1, none, none, .free⟩
     rfl rfl rfl⟩

/-- C10: in a CheckedDeque holding exactly one element, head and tail are the
same shared node, so while the mutable view from `peek_front_mut` is live,
`peek_back`, `peek_back_mut` and `peek_front` all fail fast even though some
of them name the opposite end; after the view is released they succeed. -/
theorem c10_single_node_alias :
    Fourth.List.push_front (Fourth.List.new : Fourth.List Nat) 1 =
      .ok Fourth.oneElem ∧
    Fourth.oneElem.head = Fourth.oneElem.tail ∧
    Fourth.oneElem.peek_front_mut = .ok (some (1, 1), Fourth.oneElemW) ∧
    Fourth.oneElemW.peek_back = .error () ∧
    Fourth.oneElemW.peek_back_mut = .error () ∧
    Fourth.oneElemW.peek_front = .error () ∧
    (∃ s₂, (Fourth.releaseWrite Fourth.oneElemW 1).peek_back =
      .ok (some (1, 1), s₂)) ∧
    (∃ s₂, (Fourth.releaseWrite Fourth.oneElemW 1).peek_back_mut =
      .ok (some (1, 1), s₂)) :=
  ⟨rfl, rfl, rfl, rfl, rfl, rfl, ⟨_, rfl⟩, ⟨_, rfl⟩⟩

/-! ## Claim C8: teardown strategies of the variants -/

theorem first_chain_drop_depth :
    ∀ n : Nat, First.Link.defaultDropDepth (First.chain n) = n := by
  intro n
  induction n with
  | zero => rfl
  | succ n ih =>
    simp [First.chain, First.Link.defaultDropDepth, ih, Nat.add_comm]

theorem first_chain_length : ∀ n : Nat, (First.chain n).length = n := by
  intro n
  induction n with
  | zero => rfl
  | succ n ih =>
    simp [First.chain, First.Link.length, ih, Nat.add_comm]

theorem bad_drop_iterations_eq_length (c : BadStack.Link) :
    c.dropIterations = c.length := by
  induction c with
  | Empty => rfl
  | More e next ih =>
    simp [BadStack.Link.dropIterations, BadStack.Link.length, ih]

theorem bad_drop_depth_le_one (c : BadStack.Link) :
    c.dropLoopMaxDepth ≤ 1 := by
  induction c with
  | Empty => exact Nat.zero_le 1
  | More e next ih =>
    simp only [BadStack.Link.dropLoopMaxDepth]
    refine max_le ?_ ih
    simp [BadStack.Link.defaultDropDepth]

theorem second_drop_iterations_eq_length {T : Type} (c : Second.Link T) :
    c.dropIterations = c.length := by
  induction c with
  | none => rfl
  | more e next ih =>
    simp [Second.Link.dropIterations, Second.Link.length, ih]

theorem second_drop_depth_le_one {T : Type} (c : Second.Link T) :
    c.dropLoopMaxDepth ≤ 1 := by
  induction c with
  | none => exact Nat.zero_le 1
  | more e next ih =>
    simp only [Second.Link.dropLoopMaxDepth]
    refine max_le ?_ ih
    simp [Second.Link.defaultDropDepth]

namespace UnsafeDeque

theorem queue_chain_addr_cons {T : Type} {h : Nat → Option (Node T)} {p a : Nat}
    {as : Sq Nat} {xs : Sq T} (hc : Chain h p (a :: as) xs) :
    p = a ∧ a ≠ 0 ∧ ∃ nd xs', h a = some nd ∧ xs = nd.elem :: xs' ∧
      Chain h nd.next as xs' := by
  cases hc with
  | cons h0 hfind hrest => exact ⟨rfl, h0, _, _, hfind, rfl, hrest⟩

theorem queue_droploop {T : Type} :
    ∀ (as : Sq Nat) (h : Nat → Option (Node T)) (p : Nat) (xs : Sq T),
    Chain h p as xs → as.Nodup →
    ((dropLoop h p as.length).2 = as.length ∧
     (∀ a ∈ as, (dropLoop h p as.length).1 a = none) ∧
     (∀ b, b ∉ as → (dropLoop h p as.length).1 b = h b)) := by
  intro as
  induction as with
  | nil =>
    intro h p xs hc hnd
    exact ⟨rfl, fun a ha => absurd ha (List.not_mem_nil a), fun b hb => rfl⟩
  | cons a as' ih =>
    intro h p xs hc hnd
    obtain ⟨hp, h0, nd, xs', hfind, hxs, hrest⟩ := queue_chain_addr_cons hc
    have hp2 : a = p := hp.symm
    subst hp2
    have hanotin : a ∉ as' := (List.nodup_cons.mp hnd).1
    have hchain' : Chain (fun b => if b = a then none else h b) nd.next as' xs' := by
      refine queue_chain_congr hrest ?_
      intro b hb
      have hba : b ≠ a := fun hba => hanotin (hba ▸ hb)
      simp [hba]
    obtain ⟨hiter, hfree, hframe⟩ :=
      ih (fun b => if b = a then none else h b) nd.next xs' hchain'
        (List.nodup_cons.mp hnd).2
    simp only [List.length_cons, dropLoop, if_neg h0, hfind]
    refine ⟨?_, ?_, ?_⟩
    · rw [hiter]
    · intro q hq
      rcases List.mem_cons.mp hq with rfl | hq2
      · rw [hframe q hanotin]
        simp
      · exact hfree q hq2
    · intro b hb
      have hba : b ≠ a := fun hba => hb (hba ▸ List.mem_cons_self _ _)
      have hbnot : b ∉ as' := fun hmem => hb (List.mem_cons_of_mem _ hmem)
      rw [hframe b hbnot]
      simp [hba]

end UnsafeDeque

namespace Third

theorem pers_droplist_owned {T : Type} :
    ∀ (as : Sq Nat) (h : Heap T) (o : Option Nat) (zs : Sq T),
    PChain h o as zs → as.Nodup →
    (∀ a ∈ as, ∃ nd, h.find a = some (nd, 1)) →
    ((∀ a ∈ as, (dropList h o as.length).find a = none) ∧
     (∀ b, b ∉ as → (dropList h o as.length).find b = h.find b)) := by
  intro as
  induction as with
  | nil =>
    intro h o zs hc hnd howned
    constructor
    · intro a ha; cases ha
    · intro b hb
      cases o <;> rfl
  | cons a as' ih =>
    intro h o zs hc hnd howned
    obtain ⟨ho, nd, c, zs', hfind, hzs, hrest⟩ := pers_chain_addr_cons hc
    subst ho
    obtain ⟨nd1, hnd1⟩ := howned a (List.mem_cons_self _ _)
    rw [hfind] at hnd1
    have hc1 : c = 1 := by
      simp only [Option.some.injEq, Prod.mk.injEq] at hnd1
      exact hnd1.2
    subst hc1
    have hanotin : a ∉ as' := (List.nodup_cons.mp hnd).1
    have hstep : dropList h (some a) (as'.length + 1) =
        dropList (h.free a) nd.next as'.length := by
      simp [dropList, hfind]
    have hchain' : PChain (h.free a) nd.next as' zs' := by
      refine pers_chain_congr hrest ?_
      intro b hb
      have hba : b ≠ a := fun hba => hanotin (hba ▸ hb)
      exact pers_nodeAt_free_ne h hba
    have howned' : ∀ b ∈ as', ∃ ndb, (h.free a).find b = some (ndb, 1) := by
      intro b hb
      have hba : b ≠ a := fun hba => hanotin (hba ▸ hb)
      rw [pers_find_free_ne h hba]
      exact howned b (List.mem_cons_of_mem _ hb)
    obtain ⟨hfree2, hframe⟩ :=
      ih (h.free a) nd.next zs' hchain' (List.nodup_cons.mp hnd).2 howned'
    rw [List.length_cons, hstep]
    constructor
    · intro q hq
      rcases List.mem_cons.mp hq with rfl | hq2
      · rw [hframe q hanotin]
        exact pers_find_free_self h q
      · exact hfree2 q hq2
    · intro b hb
      have hba : b ≠ a := fun hba => hb (hba ▸ List.mem_cons_self _ _)
      have hbnot : b ∉ as' := fun hmem => hb (List.mem_cons_of_mem _ hmem)
      rw [hframe b hbnot]
      exact pers_find_free_ne h hba

end Third

namespace Fourth

theorem dq_mem_of_mem_tail {A : Type} {c : A} : ∀ {l : Sq A}, c ∈ l.tail → c ∈ l := by
  intro l hm
  cases l with
  | nil => exact hm
  | cons d r => exact List.mem_cons_of_mem _ hm

theorem dq_mem_keys_of_mem {T : Type} {h : Sq (Nat × Node T)}
    {pr : Nat × Node T} (hm : pr ∈ h) : pr.1 ∈ keys h := by
  rw [keys]
  exact List.mem_map_of_mem Prod.fst hm

theorem dq_mem_hfind {T : Type} :
    ∀ {h : Sq (Nat × Node T)}, (keys h).Nodup →
      ∀ {q : Nat} {nd : Node T}, (q, nd) ∈ h → hFind h q = some nd := by
  intro h
  induction h with
  | nil => intro _ q nd hm; cases hm
  | cons pr rest ih =>
    intro hnd q nd hm
    obtain ⟨k, old⟩ := pr
    rw [keys, List.map_cons] at hnd
    obtain ⟨hknot, hrest⟩ := List.nodup_cons.mp hnd
    rcases List.mem_cons.mp hm with heq | hm2
    · injection heq with h1 h2
      subst h1
      subst h2
      simp [hFind]
    · have hqk : q ≠ k := by
        intro hqk
        subst hqk
        have hmem := dq_mem_keys_of_mem hm2
        rw [keys] at hmem
        exact hknot hmem
      simp only [hFind, if_neg hqk]
      exact ih hrest hm2

theorem dq_mem_hset {T : Type} {b : Nat} {nd' : Node T} :
    ∀ {h : Sq (Nat × Node T)} {pr : Nat × Node T}, pr ∈ hSet h b nd' →
      pr = (b, nd') ∨ (pr.1 ≠ b ∧ pr ∈ h) := by
  intro h
  induction h with
  | nil => intro pr hm; cases hm
  | cons q rest ih =>
    intro pr hm
    obtain ⟨k, old⟩ := q
    by_cases hkb : k = b
    · subst hkb
      simp only [hSet, if_pos rfl] at hm
      rcases List.mem_cons.mp hm with heq | hm2
      · exact Or.inl heq
      · rcases ih hm2 with heq | ⟨hne, hm3⟩
        · exact Or.inl heq
        · exact Or.inr ⟨hne, List.mem_cons_of_mem _ hm3⟩
    · simp only [hSet, if_neg hkb] at hm
      rcases List.mem_cons.mp hm with heq | hm2
      · subst heq
        exact Or.inr ⟨hkb, List.mem_cons_self _ _⟩
      · rcases ih hm2 with heq | ⟨hne, hm3⟩
        · exact Or.inl heq
        · exact Or.inr ⟨hne, List.mem_cons_of_mem _ hm3⟩

theorem dq_fieldRefs_eq_zero {T : Type} {a : Nat} :
    ∀ {h : Sq (Nat × Node T)},
      (∀ pr ∈ h, pr.2.prev ≠ some a ∧ pr.2.next ≠ some a) →
      fieldRefs h a = 0 := by
  intro h
  induction h with
  | nil => intro _; rfl
  | cons pr rest ih =>
    intro hall
    obtain ⟨k, nd⟩ := pr
    obtain ⟨hp, hn⟩ := hall (k, nd) (List.mem_cons_self _ _)
    have hp' : nd.prev ≠ some a := hp
    have hn' : nd.next ≠ some a := hn
    have hrest : ∀ q ∈ rest, q.2.prev ≠ some a ∧ q.2.next ≠ some a :=
      fun q hq => hall q (List.mem_cons_of_mem _ hq)
    simp [fieldRefs, oCount, hp', hn', ih hrest]

theorem dq_dchain_next_tail {T : Type} {h : Sq (Nat × Node T)}
    {p o : Option Nat} {as : Sq Nat} (hc : DChain h p o as) :
    ∀ q ∈ as, ∀ nq, hFind h q = some nq → ∀ c, nq.next = some c →
      c ∈ as.tail := by
  induction hc with
  | nil => intro q hq; cases hq
  | @cons p a nd as' hfind hprev hrest ih =>
    intro q hq nq hfindq c hnext
    rcases List.mem_cons.mp hq with rfl | hq2
    · rw [hfindq] at hfind
      injection hfind with hnd
      subst hnd
      rw [hnext] at hrest
      obtain ⟨nc, as₃, hfc, hpc, hase, hrc⟩ := dq_dchain_some_inv hrest
      show c ∈ as'
      rw [hase]
      exact List.mem_cons_self _ _
    · exact dq_mem_of_mem_tail (ih q hq2 nq hfindq c hnext)

theorem dq_dchain_prev_tail {T : Type} {h : Sq (Nat × Node T)}
    {p o : Option Nat} {as : Sq Nat} (hc : DChain h p o as) :
    ∀ q ∈ as.tail, ∀ nq, hFind h q = some nq → ∀ c, nq.prev = some c →
      c ∈ as := by
  induction hc with
  | nil => intro q hq; cases hq
  | @cons p a nd as' hfind hprev hrest ih =>
    intro q hq nq hfindq c hprevq
    have hq' : q ∈ as' := hq
    cases hnn : nd.next with
    | none =>
      rw [hnn] at hrest
      have h0 : as' = [] := dq_dchain_none_inv hrest
      subst h0
      cases hq'
    | some b =>
      rw [hnn] at hrest
      obtain ⟨nb, as₃, hfb, hpb, hase, hrb⟩ := dq_dchain_some_inv hrest
      subst hase
      rcases List.mem_cons.mp hq' with rfl | hq2
      · rw [hfindq] at hfb
        injection hfb with hnd
        subst hnd
        rw [hprevq] at hpb
        injection hpb with hca
        subst hca
        exact List.mem_cons_self _ _
      · have hc2 := ih q hq2 nq hfindq c hprevq
        exact List.mem_cons_of_mem _ hc2

end Fourth

namespace Fourth

theorem dq_pop_front_step {T : Type} {s : List T} {a : Nat} {as₂ : Sq Nat}
    (hchain : DChain s.heap none s.head (a :: as₂))
    (htail : s.tail = (a :: as₂).getLast?)
    (hkeys : ∀ q, q ∈ keys s.heap ↔ q ∈ a :: as₂)
    (hknodup : (keys s.heap).Nodup)
    (hasnodup : (a :: as₂).Nodup)
    (hflags : ∀ q nd, hFind s.heap q = some nd → nd.flag = .free) :
    ∃ (e : T) (s' : List T), s.pop_front = .ok (some e, s') ∧
      DChain s'.heap none s'.head as₂ ∧
      s'.tail = as₂.getLast? ∧
      (∀ q, q ∈ keys s'.heap ↔ q ∈ as₂) ∧
      (keys s'.heap).Nodup ∧
      (∀ q nd, hFind s'.heap q = some nd → nd.flag = .free) := by
  obtain ⟨hh, nd0, hfind0, hprev0, hrest⟩ := dq_dchain_addr_cons_inv hchain
  have hflag : nd0.flag = BorrowFlag.free := hflags a nd0 hfind0
  have hanotin : a ∉ as₂ := (List.nodup_cons.mp hasnodup).1
  cases hnn : nd0.next with
  | none =>
    rw [hnn] at hrest
    have has2 : as₂ = [] := dq_dchain_none_inv hrest
    subst has2
    have hrc : refCount (⟨hSet s.heap a { nd0 with next := none }, none, none,
        s.fresh⟩ : List T) a = 0 := by
      show oCount none a + oCount none a +
        fieldRefs (hSet s.heap a { nd0 with next := none }) a = 0
      have hfr : fieldRefs (hSet s.heap a { nd0 with next := none }) a = 0 := by
        refine dq_fieldRefs_eq_zero ?_
        intro pr hpr
        rcases dq_mem_hset hpr with heq | ⟨hpa, hpr2⟩
        · subst heq
          constructor
          · show nd0.prev ≠ some a
            rw [hprev0]
            exact fun hcon => Option.noConfusion hcon
          · exact fun hcon => Option.noConfusion hcon
        · exfalso
          obtain ⟨q, ndq⟩ := pr
          have hfq : hFind s.heap q = some ndq := dq_mem_hfind hknodup hpr2
          have hqmem : q ∈ [a] := (hkeys q).mp (dq_hfind_mem_keys hfq)
          rcases List.mem_singleton.mp hqmem with rfl
          exact hpa rfl
      rw [hfr]
      simp [oCount]
    refine ⟨nd0.elem, ⟨hErase (hSet s.heap a { nd0 with next := none }) a, none,
      none, s.fresh⟩, ?_, ?_, ?_, ?_, ?_, ?_⟩
    · simp only [List.pop_front, hh, hfind0]
      rw [if_pos hflag]
      simp only [hnn]
      rw [if_pos hrc]
    · exact DChain.nil _
    · rfl
    · intro q
      constructor
      · intro hmem
        exfalso
        obtain ⟨hmem1, hqa⟩ := (dq_mem_keys_erase _ a q).mp hmem
        rw [dq_keys_set] at hmem1
        rcases List.mem_singleton.mp ((hkeys q).mp hmem1) with rfl
        exact hqa rfl
      · intro hmem
        cases hmem
    · refine dq_nodup_keys_erase a ?_
      rw [dq_keys_set]
      exact hknodup
    · intro q nq hfq
      have hqa : q ≠ a := by
        intro hqa
        subst hqa
        rw [dq_hfind_erase_self] at hfq
        cases hfq
      rw [dq_hfind_erase_ne _ hqa, dq_hfind_set_ne _ _ hqa] at hfq
      exact hflags q nq hfq
  | some b =>
    rw [hnn] at hrest
    obtain ⟨nd2, as₃, hfindb, hprevb, hase, hrest2⟩ := dq_dchain_some_inv hrest
    subst hase
    have hab : a ≠ b := fun hab => hanotin (hab ▸ List.mem_cons_self _ _)
    have hba : b ≠ a := Ne.symm hab
    have hbnotin : b ∉ as₃ :=
      (List.nodup_cons.mp (List.nodup_cons.mp hasnodup).2).1
    have hflagb : nd2.flag = BorrowFlag.free := hflags b nd2 hfindb
    have hfindb1 : hFind (hSet s.heap a { nd0 with next := none }) b =
        some nd2 := by
      rw [dq_hfind_set_ne _ _ hba]
      exact hfindb
    obtain ⟨t, htlast⟩ : ∃ t, (b :: as₃).getLast? = some t :=
      Option.isSome_iff_exists.mp
        (List.getLast?_isSome.mpr (List.cons_ne_nil _ _))
    have hstail : s.tail = some t := by
      rw [htail, List.getLast?_cons_cons]
      exact htlast
    have htmem : t ∈ b :: as₃ := List.mem_of_getLast?_eq_some htlast
    have hta : t ≠ a := fun hta => hanotin (hta ▸ htmem)
    have hrc : refCount (⟨hSet (hSet s.heap a { nd0 with next := none }) b
        { nd2 with prev := none }, some b, s.tail, s.fresh⟩ : List T) a = 0 := by
      show oCount (some b) a + oCount s.tail a + fieldRefs (hSet (hSet s.heap a
        { nd0 with next := none }) b { nd2 with prev := none }) a = 0
      have h1 : oCount (some b) a = 0 := by
        simp [oCount, hba]
      have h2 : oCount s.tail a = 0 := by
        rw [hstail]
        simp [oCount, hta]
      have h3 : fieldRefs (hSet (hSet s.heap a { nd0 with next := none }) b
          { nd2 with prev := none }) a = 0 := by
        refine dq_fieldRefs_eq_zero ?_
        intro pr hpr
        rcases dq_mem_hset hpr with heq | ⟨hprb, hpr2⟩
        · subst heq
          constructor
          · exact fun hcon => Option.noConfusion hcon
          · show nd2.next ≠ some a
            intro hcon
            have hmem := dq_dchain_next_tail hchain b
              (List.mem_cons_of_mem _ (List.mem_cons_self _ _)) nd2 hfindb a hcon
            exact hanotin hmem
        · rcases dq_mem_hset hpr2 with heq | ⟨hpra, hpr3⟩
          · subst heq
            constructor
            · show nd0.prev ≠ some a
              rw [hprev0]
              exact fun hcon => Option.noConfusion hcon
            · exact fun hcon => Option.noConfusion hcon
          · obtain ⟨q, ndq⟩ := pr
            have hfq : hFind s.heap q = some ndq := dq_mem_hfind hknodup hpr3
            have hqmem : q ∈ a :: b :: as₃ := (hkeys q).mp (dq_hfind_mem_keys hfq)
            have hqa : q ≠ a := hpra
            have hqb : q ≠ b := hprb
            have hqin2 : q ∈ b :: as₃ := by
              rcases List.mem_cons.mp hqmem with rfl | hm2
              · exact absurd rfl hqa
              · exact hm2
            have hqin3 : q ∈ as₃ := by
              rcases List.mem_cons.mp hqin2 with rfl | hm3
              · exact absurd rfl hqb
              · exact hm3
            constructor
            · show ndq.prev ≠ some a
              intro hcon
              have hmem := dq_dchain_prev_tail hrest q hqin3 ndq hfq a hcon
              exact hanotin hmem
            · show ndq.next ≠ some a
              intro hcon
              have hmem := dq_dchain_next_tail hchain q hqmem ndq hfq a hcon
              exact hanotin hmem
      rw [h1, h2, h3]
    have hfind_b' : hFind (hErase (hSet (hSet s.heap a { nd0 with next := none })
        b { nd2 with prev := none }) a) b = some { nd2 with prev := none } := by
      rw [dq_hfind_erase_ne _ hba, dq_hfind_set_self, dq_hfind_set_ne _ _ hba,
        hfindb]
      rfl
    have hfind_other : ∀ q, q ≠ a → q ≠ b →
        hFind (hErase (hSet (hSet s.heap a { nd0 with next := none })
          b { nd2 with prev := none }) a) q = hFind s.heap q := by
      intro q hqa hqb
      rw [dq_hfind_erase_ne _ hqa, dq_hfind_set_ne _ _ hqb,
        dq_hfind_set_ne _ _ hqa]
    refine ⟨nd0.elem, ⟨hErase (hSet (hSet s.heap a { nd0 with next := none })
      b { nd2 with prev := none }) a, some b, s.tail, s.fresh⟩,
      ?_, ?_, ?_, ?_, ?_, ?_⟩
    · simp only [List.pop_front, hh, hfind0]
      rw [if_pos hflag]
      simp only [hnn, hfindb1]
      rw [if_pos hflagb, if_pos hrc]
    · refine DChain.cons hfind_b' rfl ?_
      show DChain _ (some b) ({ nd2 with prev := none } : Node T).next as₃
      refine dq_dchain_congr hrest2 ?_
      intro q hq
      have hqa : q ≠ a := fun hqa => hanotin (hqa ▸ List.mem_cons_of_mem _ hq)
      have hqb : q ≠ b := fun hqb => hbnotin (hqb ▸ hq)
      exact hfind_other q hqa hqb
    · show s.tail = (b :: as₃).getLast?
      rw [htail, List.getLast?_cons_cons]
    · intro q
      constructor
      · intro hmem
        obtain ⟨hmem1, hqa⟩ := (dq_mem_keys_erase _ a q).mp hmem
        rw [dq_keys_set, dq_keys_set] at hmem1
        rcases List.mem_cons.mp ((hkeys q).mp hmem1) with rfl | hmem2
        · exact absurd rfl hqa
        · exact hmem2
      · intro hmem
        have hqa : q ≠ a := fun hqa => hanotin (hqa ▸ hmem)
        refine (dq_mem_keys_erase _ a q).mpr ⟨?_, hqa⟩
        rw [dq_keys_set, dq_keys_set]
        exact (hkeys q).mpr (List.mem_cons_of_mem _ hmem)
    · refine dq_nodup_keys_erase a ?_
      rw [dq_keys_set, dq_keys_set]
      exact hknodup
    · intro q nq hfq
      have hqa : q ≠ a := by
        intro hqa
        subst hqa
        rw [dq_hfind_erase_self] at hfq
        cases hfq
      by_cases hqb : q = b
      · subst hqb
        rw [hfind_b'] at hfq
        injection hfq with hfq
        rw [← hfq]
        exact hflagb
      · rw [hfind_other q hqa hqb] at hfq
        exact hflags q nq hfq

end Fourth

namespace Fourth

theorem dq_droploop_inv {T : Type} :
    ∀ (as : Sq Nat) (s : List T),
    DChain s.heap none s.head as → s.tail = as.getLast? →
    (∀ q, q ∈ keys s.heap ↔ q ∈ as) → (keys s.heap).Nodup → as.Nodup →
    (∀ q nd, hFind s.heap q = some nd → nd.flag = .free) →
    ((dropLoop s (as.length + 1)).2 = as.length ∧
     (dropLoop s (as.length + 1)).1.head = none ∧
     (dropLoop s (as.length + 1)).1.tail = none ∧
     (dropLoop s (as.length + 1)).1.heap = []) := by
  intro as
  induction as with
  | nil =>
    intro s hchain htail hkeys hknodup hasnodup hflags
    have hh : s.head = none := dq_dchain_nil_addr_inv hchain
    have hpop : s.pop_front = .ok (none, s) := by
      simp only [List.pop_front, hh]
    have hheap : s.heap = [] := by
      cases hp : s.heap with
      | nil => rfl
      | cons pr rest =>
        exfalso
        have hmem : pr.1 ∈ keys s.heap := by
          rw [hp, keys, List.map_cons]
          exact List.mem_cons_self _ _
        exact absurd ((hkeys pr.1).mp hmem) (List.not_mem_nil _)
    have hred : dropLoop s (([] : Sq Nat).length + 1) = (s, 0) := by
      simp only [List.length_nil, dropLoop, hpop]
    rw [hred]
    refine ⟨rfl, hh, ?_, hheap⟩
    rw [htail]
    rfl
  | cons a as₂ ih =>
    intro s hchain htail hkeys hknodup hasnodup hflags
    obtain ⟨e, s', hpop, hchain', htail', hkeys', hknodup', hflags'⟩ :=
      dq_pop_front_step hchain htail hkeys hknodup hasnodup hflags
    obtain ⟨h1, h2, h3, h4⟩ := ih s' hchain' htail' hkeys' hknodup'
      (List.nodup_cons.mp hasnodup).2 hflags'
    have hred : dropLoop s ((a :: as₂).length + 1) =
        ((dropLoop s' (as₂.length + 1)).1, (dropLoop s' (as₂.length + 1)).2 + 1) := by
      simp only [List.length_cons, dropLoop, hpop]
    rw [hred]
    refine ⟨?_, h2, h3, h4⟩
    show (dropLoop s' (as₂.length + 1)).2 + 1 = (a :: as₂).length
    rw [h1, List.length_cons]

theorem dq_droploop_reach {T : Type} {s : List T} (hr : Reach s) :
    (dropLoop s (s.heap.length + 1)).2 = s.heap.length ∧
    (dropLoop s (s.heap.length + 1)).1.head = none ∧
    (dropLoop s (s.heap.length + 1)).1.tail = none ∧
    (dropLoop s (s.heap.length + 1)).1.heap = [] := by
  obtain ⟨as, hchain, htail, hkeys, hknodup, hasnodup, hbound, hflags⟩ :=
    dq_reach_inv hr
  have hlen : s.heap.length = as.length := by
    have hperm : List.Perm (keys s.heap) as :=
      (List.perm_ext_iff_of_nodup hknodup hasnodup).mpr hkeys
    have hk : (keys s.heap).length = as.length := hperm.length_eq
    rw [← hk, keys, List.length_map]
  rw [hlen]
  exact dq_droploop_inv as s hchain htail hkeys hknodup hasnodup hflags

end Fourth

/-- Counterexample for C8: first.rs has no `Drop` impl, so its teardown is the
compiler-generated recursive one, which nests one drop call per element —
on a 100000-node chain the nesting depth is 100000, not a constant, so the
claim that every list variant tears down via a loop that never recurses once
per element is false. -/
theorem c8_counterexample :
    First.Link.defaultDropDepth (First.chain 100000) = 100000 ∧
    (First.chain 100000).length = 100000 ∧
    ¬ First.Link.defaultDropDepth (First.chain 100000) ≤ 1 := by
  refine ⟨first_chain_drop_depth 100000, first_chain_length 100000, ?_⟩
  rw [first_chain_drop_depth 100000]
  omega

/-- C8 (amended): the variants with an explicit `Drop` impl tear down
iteratively — bad_stack.rs and second.rs run one loop iteration per node and
the node detached in each iteration is dropped with nesting depth at most 1;
unsafe_deque.rs's loop frees exactly the chain, one iteration per node;
third.rs's loop frees a wholly-owned chain one node per fuel unit; and
fourth.rs's `Drop` (`while pop_front().is_some()`) empties every API-reachable
deque in exactly one iteration per node, leaving head, tail and heap all
empty. first.rs, by contrast, has no `Drop` impl:
its default teardown recurses once per element, so the 100000-node teardown
guarantee holds only for the loop-based variants. -/
theorem c8_loop_teardown_amended :
    (∀ n : Nat, First.Link.defaultDropDepth (First.chain n) = n) ∧
    (∀ c : BadStack.Link, c.dropIterations = c.length ∧
      c.dropLoopMaxDepth ≤ 1) ∧
    (∀ (T : Type) (c : Second.Link T), c.dropIterations = c.length ∧
      c.dropLoopMaxDepth ≤ 1) ∧
    (∀ (T : Type) (h : Nat → Option (UnsafeDeque.Node T)) (p : Nat)
      (as : Sq Nat) (xs : Sq T),
      UnsafeDeque.Chain h p as xs → as.Nodup →
      (UnsafeDeque.dropLoop h p as.length).2 = as.length ∧
      ∀ a ∈ as, (UnsafeDeque.dropLoop h p as.length).1 a = none) ∧
    (∀ (T : Type) (as : Sq Nat) (h : Third.Heap T) (o : Option Nat)
      (zs : Sq T),
      Third.PChain h o as zs → as.Nodup →
      (∀ a ∈ as, ∃ nd, h.find a = some (nd, 1)) →
      ∀ a ∈ as, (Third.dropList h o as.length).find a = none) ∧
    (∀ (T : Type) (s : Fourth.List T), Fourth.Reach s →
      (Fourth.dropLoop s (s.heap.length + 1)).2 = s.heap.length ∧
      (Fourth.dropLoop s (s.heap.length + 1)).1.head = none ∧
      (Fourth.dropLoop s (s.heap.length + 1)).1.tail = none ∧
      (Fourth.dropLoop s (s.heap.length + 1)).1.heap = []) := by
  refine ⟨first_chain_drop_depth, ?_, ?_, ?_, ?_, ?_⟩
  · intro c
    exact ⟨bad_drop_iterations_eq_length c, bad_drop_depth_le_one c⟩
  · intro T c
    exact ⟨second_drop_iterations_eq_length c, second_drop_depth_le_one c⟩
  · intro T h p as xs hc hnd
    obtain ⟨h1, h2, h3⟩ := UnsafeDeque.queue_droploop as h p xs hc hnd
    exact ⟨h1, h2⟩
  · intro T as h o zs hc hnd howned
    exact (Third.pers_droplist_owned as h o zs hc hnd howned).1
  · intro T s hr
    exact Fourth.dq_droploop_reach hr

/-- Witness for the amended C8 at concrete inputs: a one-node raw-tail-queue
heap, the one-node persistent fixture store, and the API-reached one-element
doubly-linked deque. -/
theorem c8_loop_teardown_amended_witness :
    ((UnsafeDeque.dropLoop
        (fun b => if b = 1 then some (⟨5, 0⟩ : UnsafeDeque.Node Nat) else none)
        1 ([1] : Sq Nat).length).2 = ([1] : Sq Nat).length ∧
      ∀ a ∈ ([1] : Sq Nat), (UnsafeDeque.dropLoop
        (fun b => if b = 1 then some (⟨5, 0⟩ : UnsafeDeque.Node Nat) else none)
        1 ([1] : Sq Nat).length).1 a = none) ∧
    (∀ a ∈ ([1] : Sq Nat), (Third.dropList Third.sampleHeap
      Third.sampleList.head ([1] : Sq Nat).length).find a = none) ∧
    ((Fourth.dropLoop Fourth.oneElem (Fourth.oneElem.heap.length + 1)).2 =
        Fourth.oneElem.heap.length ∧
      (Fourth.dropLoop Fourth.oneElem
        (Fourth.oneElem.heap.length + 1)).1.head = none ∧
      (Fourth.dropLoop Fourth.oneElem
        (Fourth.oneElem.heap.length + 1)).1.tail = none ∧
      (Fourth.dropLoop Fourth.oneElem
        (Fourth.oneElem.heap.length + 1)).1.heap = []) :=
  ⟨c8_loop_teardown_amended.2.2.2.1 Nat
      (fun b => if b = 1 then some (⟨5, 0⟩ : UnsafeDeque.Node Nat) else none)
      1 [1] [5]
      (UnsafeDeque.Chain.cons (by decide)
        (show (fun b => if b = 1 then some (⟨5, 0⟩ : UnsafeDeque.Node Nat)
          else none) 1 = some ⟨5, 0⟩ from rfl) UnsafeDeque.Chain.nil)
      (by decide),
   c8_loop_teardown_amended.2.2.2.2.1 Nat [1] Third.sampleHeap
      Third.sampleList.head [10]
      (Third.PChain.cons
        (show Third.sampleHeap.find 1 = some (⟨10, none⟩, 1) from rfl)
        Third.PChain.nil)
      (by decide)
      (by
        intro a ha
        rcases List.mem_singleton.mp ha with rfl
        exact ⟨⟨10, none⟩, rfl⟩),
   c8_loop_teardown_amended.2.2.2.2.2 Nat Fourth.oneElem
      (Fourth.Reach.push_front Fourth.Reach.new rfl)⟩
